import Mathlib

/-!
# The C web server: the LRU cache (`src/cache.c`) and two functions of `src/server.c`

A shallow embedding of the cache: the heap of `struct cache_entry` cells is a
list, a pointer is `Option Nat` (`none` is `NULL`, `some a` is the cell at
position `a`), and every function that dereferences a pointer returns `Option`:
`none` is the fault of dereferencing `NULL` (or a dangling address).

From `server.c`, `find_start_of_body` is embedded on texts as lists of
characters, and `send_response` on the byte array it fills.
-/

namespace CWebServer

/-! ## Data model -/

/-- One `struct cache_entry`. The two strings are the texts of the C strings
`path` and `content_type`; `content` is the bytes of the buffer that `content`
points to; `prev` and `next` are the links of the doubly linked list. -/
structure cache_entry where
  path : String
  content_type : String
  content_length : Int
  content : List Nat
  prev : Option Nat
  next : Option Nat
deriving DecidableEq, Repr

/-- Modelled from the spec: the hash index of `hashtable.h`, whose source is
not part of the repository files at hand. Spec 4.1 describes it as an abstract
associative map from a key to an entry reference; here it is the list of its
mappings. -/
abbrev hashtable := List (String × Nat)

/-- Modelled from the spec: `hashtable_create(size, hashf)`, the empty index
(spec 4.1, `create(size_hint)`); the size hint does not change the mapping. -/
def hashtable_create (_size : Int) : hashtable := []

/-- Modelled from the spec: `hashtable_put`, which "inserts or overwrites the
mapping for `key`" (spec 4.1). -/
def hashtable_put (ht : hashtable) (key : String) (data : Nat) : hashtable :=
  (key, data) :: ht.filter (fun kv => kv.1 ≠ key)

/-- Modelled from the spec: `hashtable_get`, the lookup that returns the value
reference or absent and does not mutate the index (spec 4.1). -/
def hashtable_get (ht : hashtable) (key : String) : Option Nat :=
  (ht.find? (fun kv => kv.1 = key)).map (fun kv => kv.2)

/-- Modelled from the spec: `hashtable_delete`, which "removes the mapping;
no-op if key is not present" (spec 4.1). -/
def hashtable_delete (ht : hashtable) (key : String) : hashtable :=
  ht.filter (fun kv => kv.1 ≠ key)

/-- One `struct cache`, together with the heap `mem` in which its entries are
allocated (the C code reaches the entries through raw pointers). `max_size` and
`cur_size` are C `int`s; `cur_size` stays within `0 .. max_size` for a positive
capacity, so no wrap-around is modelled. -/
structure cache where
  index : hashtable
  head : Option Nat
  tail : Option Nat
  max_size : Int
  cur_size : Int
  mem : List cache_entry
deriving DecidableEq, Repr

/-! ## Heap access -/

/-- Reads `*p`; `none` when `p` is `NULL` or not an allocated cell. -/
def deref (m : List cache_entry) (p : Option Nat) : Option cache_entry :=
  match p with
  | none => none
  | some a => m[a]?

/-- Performs the field assignment `p->field = ...` expressed by `f`; `none`
when `p` is `NULL` or not an allocated cell. -/
def store (m : List cache_entry) (p : Option Nat) (f : cache_entry → cache_entry) :
    Option (List cache_entry) :=
  match p with
  | none => none
  | some a =>
    match m[a]? with
    | none => none
    | some e => some (m.set a (f e))

/-- The libc `strdup` on a byte buffer: the copy stops at the first zero byte.
The list stands for the bytes readable from the pointer; without a zero byte
in it the copy is the whole list. -/
def strdup (bytes : List Nat) : List Nat :=
  bytes.takeWhile (fun b => b ≠ 0)

/-! ## The functions of `cache.c` -/

/-- `alloc_entry`: a new cell at the end of the heap. `path` and `content_type`
are C strings, so `strdup` copies their whole text; `content` is a byte buffer
and is copied with `strdup` as well; `content_length` is stored as given. -/
def alloc_entry (m : List cache_entry) (path content_type : String) (content : List Nat)
    (content_length : Int) : List cache_entry × Nat :=
  (m ++ [{ path := path, content_type := content_type, content_length := content_length,
           content := strdup content, prev := none, next := none }], m.length)

/-- `dllist_insert_head`. -/
def dllist_insert_head (c : cache) (ce : Nat) : Option cache :=
  match c.head with
  | none => do
    let m ← store c.mem (some ce) (fun e => { e with prev := none, next := none })
    some { c with head := some ce, tail := some ce, mem := m }
  | some h => do
    let m1 ← store c.mem (some h) (fun e => { e with prev := some ce })
    let m2 ← store m1 (some ce) (fun e => { e with next := some h })
    let m3 ← store m2 (some ce) (fun e => { e with prev := none })
    some { c with head := some ce, mem := m3 }

/-- `dllist_move_to_head`. -/
def dllist_move_to_head (c : cache) (ce : Nat) : Option cache :=
  if some ce ≠ c.head then do
    let c1 ←
      if some ce = c.tail then do
        let e ← deref c.mem (some ce)
        let m ← store c.mem e.prev (fun t => { t with next := none })
        some { c with tail := e.prev, mem := m }
      else do
        let e ← deref c.mem (some ce)
        let m1 ← store c.mem e.prev (fun x => { x with next := e.next })
        let e1 ← deref m1 (some ce)
        let m2 ← store m1 e1.next (fun x => { x with prev := e1.prev })
        some { c with mem := m2 }
    let m3 ← store c1.mem (some ce) (fun e => { e with next := c1.head })
    let m4 ← store m3 c1.head (fun h => { h with prev := some ce })
    let m5 ← store m4 (some ce) (fun e => { e with prev := none })
    some { c1 with head := some ce, mem := m5 }
  else some c

/-- `dllist_remove_tail`: returns the cache and the old tail. -/
def dllist_remove_tail (c : cache) : Option (cache × Nat) := do
  let oldtail ← c.tail
  let e ← deref c.mem (some oldtail)
  let m ← store c.mem e.prev (fun t => { t with next := none })
  some ({ c with tail := e.prev, mem := m }, oldtail)

/-- `cache_create`; the allocation itself is assumed to succeed. -/
def cache_create (max_size hashsize : Int) : cache :=
  { index := hashtable_create hashsize, head := none, tail := none,
    max_size := max_size, cur_size := 0, mem := [] }

/-- `cache_put`. -/
def cache_put (c : cache) (path content_type : String) (content : List Nat)
    (content_length : Int) : Option cache := do
  let (m, ce) := alloc_entry c.mem path content_type content content_length
  let c0 : cache := { c with mem := m }
  let c1 ←
    if c0.cur_size = c0.max_size then do
      let (c', oldtail) ← dllist_remove_tail c0
      let o ← deref c'.mem (some oldtail)
      some { c' with index := hashtable_delete c'.index o.path, cur_size := c'.cur_size - 1 }
    else some c0
  let c2 ← dllist_insert_head c1 ce
  let c3 : cache := { c2 with cur_size := c2.cur_size + 1 }
  let e ← deref c3.mem (some ce)
  some { c3 with index := hashtable_put c3.index e.path ce }

/-- `cache_get`: the cache afterwards and the returned pointer (`none` is
`NULL`, a miss). -/
def cache_get (c : cache) (path : String) : Option (cache × Option Nat) :=
  match hashtable_get c.index path with
  | none => some (c, none)
  | some ce => do
    let c' ← dllist_move_to_head c ce
    some (c', some ce)

/-! ## Observations of a cache state -/

/-- The addresses met when following `next` from `p`, for at most `fuel` steps. -/
def walk_next (m : List cache_entry) : Nat → Option Nat → List Nat
  | 0, _ => []
  | _ + 1, none => []
  | fuel + 1, some a =>
    match m[a]? with
    | none => []
    | some e => a :: walk_next m fuel e.next

/-- The addresses met when following `prev` from `p`, for at most `fuel` steps. -/
def walk_prev (m : List cache_entry) : Nat → Option Nat → List Nat
  | 0, _ => []
  | _ + 1, none => []
  | fuel + 1, some a =>
    match m[a]? with
    | none => []
    | some e => a :: walk_prev m fuel e.prev

/-- The recency list read from `head` along `next`, most recent first. -/
def recency_list (c : cache) : List Nat := walk_next c.mem c.mem.length c.head

/-- The recency list read from `tail` along `prev`, least recent first. -/
def recency_list_back (c : cache) : List Nat := walk_prev c.mem c.mem.length c.tail

/-- The key stored in the cell at address `a` (empty for a dangling address). -/
def key_at (m : List cache_entry) (a : Nat) : String :=
  match m[a]? with
  | none => ""
  | some e => e.path

/-- The keys of the recency list, most recent first. -/
def recency_keys (c : cache) : List String := (recency_list c).map (key_at c.mem)

/-- What `cache_get` hands to its caller about an entry: the key, the content
type, the stored bytes and the stored length. -/
def payload_of (e : cache_entry) : String × String × List Nat × Int :=
  (e.path, e.content_type, e.content, e.content_length)

/-- The payload of the entry a returned pointer refers to. -/
def payload_at (m : List cache_entry) (a : Nat) : Option (String × String × List Nat × Int) :=
  (m[a]?).map payload_of

/-! ## Well-formedness -/

/-- The successor of the last cell of a segment: the first address of what
follows, or `n` when nothing follows. -/
def first_or (l : List Nat) (n : Option Nat) : Option Nat :=
  match l with
  | [] => n
  | b :: _ => some b

/-- The predecessor of what follows a segment: its last address, or `p` when
the segment is empty. -/
def last_or : List Nat → Option Nat → Option Nat
  | [], p => p
  | a :: l, _ => last_or l (some a)

/-- The cell at `a` is allocated and its links are `p` and `n`. -/
def node (m : List cache_entry) (a : Nat) (p n : Option Nat) : Prop :=
  (m[a]?).map (fun e => (e.prev, e.next)) = some (p, n)

/-- The addresses `L` form a piece of a doubly linked list in `m`: entered with
`prev = p` on its first cell and left with `next = n` on its last cell. -/
def seg (m : List cache_entry) : Option Nat → List Nat → Option Nat → Prop
  | _, [], _ => True
  | p, a :: l, n => node m a p (first_or l n) ∧ seg m (some a) l n

/-- The cache's list structure is the doubly linked list `L` (most recent
first): links in both directions, no cell twice, `head` and `tail` its ends. -/
structure Linked (c : cache) (L : List Nat) : Prop where
  links : seg c.mem none L none
  nodup : L.Nodup
  head_eq : c.head = L.head?
  tail_eq : c.tail = L.getLast?

/-- Every mapping of the index refers to a cell of the list `L` that carries
the mapping's key. -/
def IndexSound (c : cache) (L : List Nat) : Prop :=
  ∀ kv ∈ c.index, kv.2 ∈ L ∧ key_at c.mem kv.2 = kv.1

/-- What holds of every state, duplicate keys included: the list structure is
`L`, `cur_size` is its length, and the index refers only to cells of `L`. -/
structure Sound (c : cache) (L : List Nat) : Prop where
  linked : Linked c L
  size_eq : c.cur_size = L.length
  index : IndexSound c L

/-- The structural invariant with `L` the list of live entries: the list
structure is `L`, the index holds exactly one mapping per entry of `L`, under
that entry's key, the keys are pairwise distinct, and `cur_size` is the
number of entries. -/
structure Represents (c : cache) (L : List Nat) : Prop where
  linked : Linked c L
  size_eq : c.cur_size = L.length
  index_perm : List.Perm c.index (L.map (fun a => (key_at c.mem a, a)))
  keys_nodup : (L.map (key_at c.mem)).Nodup

/-- The structural invariant of a cache state, on the list read from `head`. -/
def well_formed (c : cache) : Prop := Represents c (recency_list c)

/-- Two heaps hold the same payloads at the same addresses (links may differ). -/
def same_payload (m m' : List cache_entry) : Prop :=
  ∀ a, payload_at m' a = payload_at m a

/-- One call on the cache. -/
inductive call where
  | put (path content_type : String) (content : List Nat) (content_length : Int)
  | get (path : String)
deriving DecidableEq, Repr

/-- Runs one call; `none` when the call dereferences `NULL`. -/
def step (c : cache) : call → Option cache
  | .put path content_type content content_length =>
    cache_put c path content_type content content_length
  | .get path => (cache_get c path).map (fun r => r.1)

/-- Runs a sequence of calls from left to right. -/
def run (c : cache) : List call → Option cache
  | [] => some c
  | x :: xs => (step c x).bind (fun c' => run c' xs)

/-- The call `cache_put(cache, path, content_type, content, content_length)`
for one tuple of arguments. -/
def put_call (p : String × String × List Nat × Int) : call :=
  .put p.1 p.2.1 p.2.2.1 p.2.2.2

/-- The unlinking half of the body of `dllist_move_to_head` (the inner
`if`/`else`), named for the proofs. -/
def unlink (c : cache) (ce : Nat) : Option cache :=
  if some ce = c.tail then do
    let e ← deref c.mem (some ce)
    let m ← store c.mem e.prev (fun t => { t with next := none })
    some { c with tail := e.prev, mem := m }
  else do
    let e ← deref c.mem (some ce)
    let m1 ← store c.mem e.prev (fun x => { x with next := e.next })
    let e1 ← deref m1 (some ce)
    let m2 ← store m1 e1.next (fun x => { x with prev := e1.prev })
    some { c with mem := m2 }

/-- The relinking half of the body of `dllist_move_to_head` (its last four
assignments), named for the proofs. -/
def relink (c1 : cache) (ce : Nat) : Option cache := do
  let m3 ← store c1.mem (some ce) (fun e => { e with next := c1.head })
  let m4 ← store m3 c1.head (fun h => { h with prev := some ce })
  let m5 ← store m4 (some ce) (fun e => { e with prev := none })
  some { c1 with head := some ce, mem := m5 }

/-- A list operation leaves the index, the two sizes and every payload alone. -/
structure Frame (c c' : cache) : Prop where
  index_eq : c'.index = c.index
  max_eq : c'.max_size = c.max_size
  cur_eq : c'.cur_size = c.cur_size
  payload : same_payload c.mem c'.mem
  length_eq : c'.mem.length = c.mem.length

instance node_decidable (m : List cache_entry) (a : Nat) (p n : Option Nat) :
    Decidable (node m a p n) := by
  unfold node; infer_instance

instance seg_decidable (m : List cache_entry) :
    ∀ (p : Option Nat) (L : List Nat) (n : Option Nat), Decidable (seg m p L n)
  | _, [], _ => isTrue trivial
  | p, a :: l, n =>
    have := seg_decidable m (some a) l n
    decidable_of_iff (node m a p (first_or l n) ∧ seg m (some a) l n) Iff.rfl

instance Linked_decidable (c : cache) (L : List Nat) : Decidable (Linked c L) :=
  decidable_of_iff (seg c.mem none L none ∧ L.Nodup ∧ c.head = L.head? ∧ c.tail = L.getLast?)
    ⟨fun h => ⟨h.1, h.2.1, h.2.2.1, h.2.2.2⟩, fun h => ⟨h.1, h.2, h.3, h.4⟩⟩

instance Represents_decidable (c : cache) (L : List Nat) : Decidable (Represents c L) :=
  decidable_of_iff (Linked c L ∧ c.cur_size = L.length ∧
      List.Perm c.index (L.map (fun a => (key_at c.mem a, a))) ∧ (L.map (key_at c.mem)).Nodup)
    ⟨fun h => ⟨h.1, h.2.1, h.2.2.1, h.2.2.2⟩, fun h => ⟨h.1, h.2, h.3, h.4⟩⟩

instance well_formed_decidable (c : cache) : Decidable (well_formed c) := by
  unfold well_formed; infer_instance

/-- A full cache of capacity 3 holding the keys C, B, A (most recent first):
the state after `put A`, `put B`, `put C` on a fresh cache. -/
def sample : cache :=
  { index := [("C", 2), ("B", 1), ("A", 0)], head := some 2, tail := some 0,
    max_size := 3, cur_size := 3,
    mem := [⟨"A", "text/plain", 2, [104, 105], some 1, none⟩,
            ⟨"B", "text/plain", 2, [104, 105], some 2, some 0⟩,
            ⟨"C", "text/plain", 2, [104, 105], none, some 1⟩] }

/-- Two puts with distinct keys. -/
def sample_puts : List (String × String × List Nat × Int) :=
  [("D", "text/html", [60, 97, 62], 3), ("E", "text/plain", [104, 105], 2)]

/-- A sequence of calls with a repeated key and gets in between. -/
def sample_calls : List call :=
  [.put "A" "text/html" [60, 97, 62] 3, .put "A" "text/html" [60, 97, 62] 3, .get "A",
   .put "B" "text/plain" [104, 105] 2, .get "A", .put "C" "text/css" [97] 1, .get "B"]

/-- The cache `sample` with capacity 5: three entries and room for two more. -/
def sample_room : cache := { sample with max_size := 5 }

/-- A full cache of capacity 1 holding the key A: the state after `put A` on
a fresh cache of capacity 1. -/
def sample_one : cache :=
  { index := [("A", 0)], head := some 0, tail := some 0, max_size := 1, cur_size := 1,
    mem := [⟨"A", "text/plain", 2, [104, 105], none, none⟩] }

/-! ## Creation result and teardown -/

/-- The pointer `cache_create` returns, `none` standing for `NULL`: the
function has no check and no `return NULL`, so it is always the new cache. -/
def cache_create_ptr (max_size hashsize : Int) : Option cache :=
  some (cache_create max_size hashsize)

/-- One release of storage during teardown: `hashtable_destroy` on the index,
`free_entry` on the cell at an address, or `free` on the cache itself. -/
inductive release where
  | index
  | entry (a : Nat)
  | cache_struct
deriving DecidableEq, Repr

/-- The `while` loop of `cache_free`: the addresses handed to `free_entry`, in
order, following `next` from `cur_entry`. `none` is a fault: a pointer that is
not a cell, or no `NULL` reached within `fuel` cells. -/
def free_entries (m : List cache_entry) : Nat → Option Nat → Option (List Nat)
  | _, none => some []
  | 0, some _ => none
  | fuel + 1, some a =>
    match m[a]? with
    | none => none
    | some e => (free_entries m fuel e.next).map (fun l => a :: l)

/-- `cache_free`: the releases it performs, in order. The loop gets as many
steps as the heap has cells; a walk that needs more passes through a cell
twice, which would hand it to `free_entry` twice. -/
def cache_free (c : cache) : Option (List release) :=
  (free_entries c.mem c.mem.length c.head).map
    (fun l => release.index :: (l.map release.entry ++ [release.cache_struct]))

/-- The releases of a program that makes the given calls and then calls
`cache_free`. `cache_put` and `cache_get` contain no call of `free_entry` or
`free`, so these are the releases of `cache_free`. -/
def run_then_free (c : cache) (calls : List call) : Option (List release) :=
  (run c calls).bind cache_free

/-! ## The functions of `server.c` on texts -/

/-- The libc `strstr` on C strings given as the lists of their characters: the
offset of the first place where `needle` starts in the text, `none` for
`NULL`. -/
def strstr (needle : List Char) : List Char → Option Nat
  | [] => if needle.isPrefixOf [] then some 0 else none
  | c :: t => if needle.isPrefixOf (c :: t) then some 0 else (strstr needle t).map (· + 1)

/-- `find_start_of_body`: the offset of the returned pointer from `header`,
`none` for `NULL`. -/
def find_start_of_body (header : List Char) : Option Nat :=
  match strstr ['\r', '\n', '\r', '\n'] header with
  | some ret => some (ret + 4)
  | none =>
    match strstr ['\r', '\r'] header with
    | some ret => some (ret + 2)
    | none =>
      match strstr ['\n', '\n'] header with
      | some ret => some (ret + 2)
      | none => none

/-- The sequence `needle` starts at offset `i` of the text. -/
def occurs_at (needle text : List Char) (i : Nat) : Prop :=
  needle <+: text.drop i

/-- Offset `i` is the first place where `needle` starts in the text. -/
def first_at (needle text : List Char) (i : Nat) : Prop :=
  occurs_at needle text i ∧ ∀ j, j < i → ¬ occurs_at needle text j

instance occurs_at_decidable (needle text : List Char) (i : Nat) :
    Decidable (occurs_at needle text i) := by
  unfold occurs_at; infer_instance

instance first_at_decidable (needle text : List Char) (i : Nat) :
    Decidable (first_at needle text i) := by
  unfold first_at; infer_instance

/-- A request text with an LF LF blank line before a CR LF CR LF one. -/
def sample_text : List Char :=
  ['a', '\n', '\n', 'b', '\r', '\n', '\r', '\n', 'c']

/-- What the claim on `find_start_of_body` describes, read off its words: the offset right after the
earliest blank line of the text, a blank line being CR LF CR LF, CR CR or
LF LF; `none` when the text has no blank line. -/
def earliest_blank_line_end : List Char → Option Nat
  | [] => none
  | c :: t =>
    if ['\r', '\n', '\r', '\n'].isPrefixOf (c :: t) then some 4
    else if ['\r', '\r'].isPrefixOf (c :: t) then some 2
    else if ['\n', '\n'].isPrefixOf (c :: t) then some 2
    else (earliest_blank_line_end t).map (· + 1)

/-! ## `send_response` -/

/-- The size `max_response_size` of the array `response`. -/
def max_response_size : Nat := 262144

/-- The bytes of an ASCII text. -/
def bytes_of (s : String) : List Nat := s.toList.map (fun ch => ch.toNat)

/-- The text `%d` prints for an `int`. -/
def decimal (n : Int) : List Nat := bytes_of (toString n)

/-- What `sprintf(rp, ...)` does to the array when the formatted text is `out`
(`sprintf` returns `out.length`): the text and a terminating zero byte are
written from offset `rp`; `none` when they do not fit into the array. -/
def sprintf (buf : List Nat) (rp : Nat) (out : List Nat) : Option (List Nat) :=
  if rp + out.length + 1 ≤ buf.length then
    some (buf.take rp ++ (out ++ [0]) ++ buf.drop (rp + out.length + 1))
  else none

/-- `memcpy(rp, src, n)` into the array: `none` when `n` is negative, when
`src` has fewer than `n` bytes, or when `n` bytes do not fit from `rp` on. -/
def memcpy (buf : List Nat) (rp : Nat) (src : List Nat) (n : Int) : Option (List Nat) :=
  if 0 ≤ n ∧ n.toNat ≤ src.length ∧ rp + n.toNat ≤ buf.length then
    some (buf.take rp ++ src.take n.toNat ++ buf.drop (rp + n.toNat))
  else none

/-- The assignment `*rp = b` into the array; `none` past its end. -/
def poke (buf : List Nat) (rp : Nat) (b : Nat) : Option (List Nat) :=
  if rp < buf.length then some (buf.set rp b) else none

/-- `send_response`: the bytes and the length it hands to `send`. `response`
is the array as it is found on the stack (any `max_response_size` bytes);
`header` and `content_type` are the texts of the C strings; `date` is the text
`asctime` returns for the current time; `body` is the bytes readable at
`body`. `none` is a write past the array or a read past `body`. -/
def send_response (response header content_type date body : List Nat)
    (content_length : Int) : Option (List Nat × Int) := do
  let response_length : Int := 0
  let rp : Nat := 0
  -- sprintf(rp, "%s\n", header)
  let out := header ++ bytes_of "\n"
  let response ← sprintf response rp out
  let response_length := response_length + out.length
  let rp := rp + out.length
  -- sprintf(rp, "Date: %s", asctime(timeinfo))
  let out := bytes_of "Date: " ++ date
  let response ← sprintf response rp out
  let response_length := response_length + out.length
  let rp := rp + out.length
  -- sprintf(rp, "Content-Length: %d\n", content_length)
  let out := bytes_of "Content-Length: " ++ decimal content_length ++ bytes_of "\n"
  let response ← sprintf response rp out
  let response_length := response_length + out.length
  let rp := rp + out.length
  -- sprintf(rp, "Content-Type: %s\n\n", content_type)
  let out := bytes_of "Content-Type: " ++ content_type ++ bytes_of "\n\n"
  let response ← sprintf response rp out
  let response_length := response_length + out.length
  let rp := rp + out.length
  -- memcpy(rp, body, content_length)
  let response ← memcpy response rp body content_length
  let response_length := response_length + content_length
  let rp := rp + content_length.toNat
  -- *(rp++) = 0
  let response ← poke response rp 0
  let response_length := response_length + 1
  -- send(fd, response, response_length, 0)
  some (response.take response_length.toNat, response_length)

/-- The header block of a response: status line, Date line, Content-Length
line, Content-Type line and the blank line. -/
def header_block (header content_type date : List Nat) (content_length : Int) : List Nat :=
  header ++ bytes_of "\n" ++ (bytes_of "Date: " ++ date) ++
    (bytes_of "Content-Length: " ++ decimal content_length ++ bytes_of "\n") ++
    (bytes_of "Content-Type: " ++ content_type ++ bytes_of "\n\n")

/-- An array of `max_response_size` bytes, every byte 7. -/
def sample_response : List Nat := List.replicate max_response_size 7

/-! ## The abstract LRU list -/

/-- The state of the abstract cache: pairs of a key and an entry (content
type, content bytes, content length), most recently used first. -/
abbrev lru_model := List (String × String × List Nat × Int)

/-- The abstract `get`: a hit moves the pair with the key to the front and
returns its entry; a miss changes nothing. -/
def model_get (m : lru_model) (k : String) : lru_model × Option (String × List Nat × Int) :=
  match m.find? (fun p => p.1 = k) with
  | none => (m, none)
  | some p => (p :: m.erase p, some p.2)

/-- The abstract `put` with capacity `N`: the new pair is prepended after the
last pair is dropped when the length is `N`. The entry of the new pair is the
one that was put: the content type, the content bytes and the length. -/
def model_put (N : Int) (m : lru_model) (k ct : String) (d : List Nat) (n : Int) : lru_model :=
  (k, ct, d, n) :: (if (m.length : Int) = N then m.dropLast else m)

/-- One call on the abstract cache. -/
def model_step (N : Int) (m : lru_model) : call → lru_model
  | .put k ct d n => model_put N m k ct d n
  | .get k => (model_get m k).1

/-- A sequence of calls on the abstract cache. -/
def model_run (N : Int) (m : lru_model) : List call → lru_model
  | [] => m
  | x :: xs => model_run N (model_step N m x) xs

/-- The calls follow the get-then-put-on-miss protocol: every `put` is made
with a key that is not present at that time. -/
def follows_protocol (N : Int) : lru_model → List call → Prop
  | _, [] => True
  | m, .put k ct d n :: xs =>
    k ∉ m.map (fun p => p.1) ∧ follows_protocol N (model_put N m k ct d n) xs
  | m, .get k :: xs => follows_protocol N (model_get m k).1 xs

instance follows_protocol_decidable (N : Int) :
    ∀ (m : lru_model) (xs : List call), Decidable (follows_protocol N m xs)
  | _, [] => isTrue trivial
  | (m : List (String × String × List Nat × Int)), .put k ct d n :: xs =>
    have := follows_protocol_decidable N (model_put N m k ct d n) xs
    decidable_of_iff
      (k ∉ List.map (fun (p : String × String × List Nat × Int) => p.1) m ∧
        follows_protocol N (model_put N m k ct d n) xs) Iff.rfl
  | m, .get k :: xs =>
    have := follows_protocol_decidable N (model_get m k).1 xs
    decidable_of_iff (follows_protocol N (model_get m k).1 xs) Iff.rfl

/-- The key and entry stored in the cell at address `a`. -/
def entry_at (m : List cache_entry) (a : Nat) : String × String × List Nat × Int :=
  (payload_at m a).getD ("", "", [], 0)

/-- The pointer-based cache seen as a list of pairs: the cells of the recency
list read from `head` along `next`. -/
def view (c : cache) : lru_model := (recency_list c).map (entry_at c.mem)

/-- The same, read from `tail` along `prev`. -/
def view_back (c : cache) : lru_model := (recency_list_back c).map (entry_at c.mem)

/-- Calls that follow the protocol on a cache of capacity 2. -/
def sample_protocol : List call :=
  [.get "A", .put "A" "text/html" [60, 97, 62] 3, .get "B", .put "B" "text/plain" [104, 105] 2,
   .get "A", .get "C", .put "C" "text/css" [97] 1, .get "B", .put "B" "text/plain" [104] 1]

/-- The call with the content that `alloc_entry` keeps of it: a put with the
`strdup` copy of its content. -/
def stored_call : call → call
  | .put k ct d n => .put k ct (strdup d) n
  | .get k => .get k

/-- No put of the sequence has a zero byte in its content. -/
def zero_free : List call → Prop
  | [] => True
  | .put _ _ d _ :: xs => 0 ∉ d ∧ zero_free xs
  | .get _ :: xs => zero_free xs

instance zero_free_decidable : ∀ (xs : List call), Decidable (zero_free xs)
  | [] => isTrue trivial
  | .put _ _ d _ :: xs =>
    have := zero_free_decidable xs
    decidable_of_iff (0 ∉ d ∧ zero_free xs) Iff.rfl
  | .get _ :: xs =>
    have := zero_free_decidable xs
    decidable_of_iff (zero_free xs) Iff.rfl

/-- A miss, then the put of a three-byte content whose second byte is zero:
calls that follow the protocol. -/
def sample_binary : List call :=
  [.get "/a", .put "/a" "text/plain" [97, 0, 98] 3]

/-! ## Heap lemmas -/

theorem store_some {m : List cache_entry} {a : Nat} {e : cache_entry}
    (f : cache_entry → cache_entry) (h : m[a]? = some e) :
    store m (some a) f = some (m.set a (f e)) := by
  simp [store, h]

theorem get_set_self {m : List cache_entry} {a : Nat} {e x : cache_entry}
    (h : m[a]? = some e) : (m.set a x)[a]? = some x := by
  have hlt : a < m.length := by
    rcases Nat.lt_or_ge a m.length with h1 | h1
    · exact h1
    · rw [List.getElem?_eq_none h1] at h; cases h
  simp [List.getElem?_set, hlt]

theorem get_set_ne {m : List cache_entry} {a b : Nat} {x : cache_entry}
    (h : a ≠ b) : (m.set a x)[b]? = m[b]? := by
  simp [List.getElem?_set, h]

theorem seg_cons {m : List cache_entry} {p n : Option Nat} {a : Nat} {l : List Nat} :
    seg m p (a :: l) n ↔ node m a p (first_or l n) ∧ seg m (some a) l n := Iff.rfl

theorem node_iff {m : List cache_entry} {a : Nat} {p n : Option Nat} :
    node m a p n ↔ ∃ e, m[a]? = some e ∧ e.prev = p ∧ e.next = n := by
  unfold node
  cases h : m[a]? with
  | none => simp
  | some e => simp

theorem seg_congr {m m' : List cache_entry} :
    ∀ (L : List Nat) (p n : Option Nat), (∀ b ∈ L, m'[b]? = m[b]?) →
      seg m p L n → seg m' p L n
  | [], _, _, _, _ => trivial
  | a :: l, p, n, hm, h => by
    refine ⟨?_, seg_congr l (some a) n (fun b hb => hm b (List.mem_cons_of_mem _ hb)) h.2⟩
    have h1 := h.1
    unfold node at h1 ⊢
    rw [hm a (List.mem_cons_self _ _)]
    exact h1

theorem first_or_append (l1 l2 : List Nat) (n : Option Nat) :
    first_or (l1 ++ l2) n = first_or l1 (first_or l2 n) := by
  cases l1 <;> rfl

theorem seg_append {m : List cache_entry} :
    ∀ (L1 L2 : List Nat) (p n : Option Nat),
      seg m p (L1 ++ L2) n ↔ seg m p L1 (first_or L2 n) ∧ seg m (last_or L1 p) L2 n
  | [], L2, p, n => by simp [seg, last_or]
  | a :: l, L2, p, n => by
    have ih := seg_append (m := m) l L2 (some a) n
    rw [List.cons_append, seg_cons, seg_cons, ih, first_or_append, and_assoc]
    rfl

theorem seg_valid {m : List cache_entry} :
    ∀ (L : List Nat) (p n : Option Nat), seg m p L n → ∀ a ∈ L, ∃ e, m[a]? = some e
  | [], _, _, _, a, ha => by cases ha
  | b :: l, p, n, h, a, ha => by
    rcases List.mem_cons.1 ha with rfl | ha
    · obtain ⟨e, he, _⟩ := node_iff.1 h.1
      exact ⟨e, he⟩
    · exact seg_valid l (some b) n h.2 a ha

/-! ## The list operations -/

theorem move_to_head_eq (c : cache) (ce : Nat) :
    dllist_move_to_head c ce =
      if some ce ≠ c.head then (unlink c ce).bind (fun c1 => relink c1 ce) else some c := by
  unfold dllist_move_to_head unlink relink
  split_ifs <;> simp only [Option.bind_eq_bind, Option.bind_assoc, Option.some_bind]

theorem get_lt {m : List cache_entry} {a : Nat} {e : cache_entry} (h : m[a]? = some e) :
    a < m.length := by
  rcases Nat.lt_or_ge a m.length with h1 | h1
  · exact h1
  · rw [List.getElem?_eq_none h1] at h; cases h

theorem seg_snoc {m : List cache_entry} (L : List Nat) (x : Nat) (p n : Option Nat) :
    seg m p (L ++ [x]) n ↔ seg m p L (some x) ∧ node m x (last_or L p) n := by
  rw [seg_append]
  simp [seg, first_or]

theorem same_payload_set {m : List cache_entry} {a : Nat} {e : cache_entry} (x : cache_entry)
    (he : m[a]? = some e) (hx : payload_of x = payload_of e) : same_payload m (m.set a x) := by
  intro b
  simp only [payload_at, List.getElem?_set]
  split_ifs with h1 h2
  · subst h1; simp [he, hx]
  · exact absurd (get_lt he) h2
  · rfl

theorem same_payload_refl (m : List cache_entry) : same_payload m m := fun _ => rfl

theorem same_payload_trans {m1 m2 m3 : List cache_entry} (h1 : same_payload m1 m2)
    (h2 : same_payload m2 m3) : same_payload m1 m3 := fun a => (h2 a).trans (h1 a)

theorem insert_head_spec {c : cache} {L : List Nat} {a : Nat} {e : cache_entry}
    (hL : Linked c L) (ha : a ∉ L) (he : c.mem[a]? = some e) :
    ∃ c', dllist_insert_head c a = some c' ∧ Linked c' (a :: L) ∧ Frame c c' := by
  obtain ⟨hseg, hnd, hhead, htail⟩ := hL
  cases L with
  | nil =>
    simp only [List.head?_nil] at hhead
    simp only [dllist_insert_head, hhead, store, he, Option.bind_eq_bind, Option.some_bind,
      Option.some.injEq, exists_eq_left']
    refine ⟨⟨?_, ?_, rfl, rfl⟩, ⟨rfl, rfl, rfl, same_payload_set _ he rfl, by simp⟩⟩
    · exact ⟨node_iff.2 ⟨_, get_set_self he, rfl, rfl⟩, trivial⟩
    · simp
  | cons h l =>
    simp only [List.head?_cons] at hhead
    rw [seg_cons] at hseg
    obtain ⟨eh, heh, hehp, hehn⟩ := node_iff.1 hseg.1
    have hah : a ≠ h := fun hh => ha (hh ▸ List.mem_cons_self _ _)
    have hha : h ≠ a := fun hh => hah hh.symm
    have hal : a ∉ l := fun hh => ha (List.mem_cons_of_mem _ hh)
    have hhl : h ∉ l := (List.nodup_cons.1 hnd).1
    have e1 : (c.mem.set h { eh with prev := some a })[a]? = some e := by
      rw [get_set_ne hha]; exact he
    simp only [dllist_insert_head, hhead, store, heh, e1, get_set_self e1, Option.bind_eq_bind,
      Option.some_bind, Option.some.injEq, exists_eq_left', List.set_set]
    refine ⟨⟨?_, List.nodup_cons.2 ⟨ha, hnd⟩, rfl, ?_⟩, ⟨rfl, rfl, rfl, ?_, by simp⟩⟩
    · refine ⟨node_iff.2 ⟨_, get_set_self e1, rfl, rfl⟩,
        node_iff.2 ⟨{ eh with prev := some a }, ?_, rfl, hehn⟩, ?_⟩
      · rw [get_set_ne hah]; exact get_set_self heh
      · refine seg_congr l _ _ (fun b hb => ?_) hseg.2
        rw [get_set_ne (fun hab : a = b => hal (hab ▸ hb)),
          get_set_ne (fun hab : h = b => hhl (hab ▸ hb))]
    · rw [htail]; simp [List.getLast?_cons_cons]
    · exact same_payload_trans (same_payload_set { eh with prev := some a } heh rfl)
        (same_payload_set { e with prev := none, next := some h } e1 rfl)

theorem last_or_snoc (L : List Nat) (x : Nat) (p : Option Nat) : last_or (L ++ [x]) p = some x := by
  induction L generalizing p with
  | nil => rfl
  | cons a l ih => exact ih (some a)

theorem head?_snoc2 (L0 : List Nat) (x t : Nat) : (L0 ++ [x, t]).head? = (L0 ++ [x]).head? := by
  cases L0 <;> rfl

theorem unlink_tail_mem {m : List cache_entry} {L0 : List Nat} {x t : Nat} {ex : cache_entry}
    (hnd : (L0 ++ [x, t]).Nodup) (hseg : seg m none (L0 ++ [x, t]) none) (hex : m[x]? = some ex) :
    seg (m.set x { ex with next := none }) none (L0 ++ [x]) none := by
  have h2 : L0 ++ [x, t] = (L0 ++ [x]) ++ [t] := by simp
  rw [h2] at hseg hnd
  rw [seg_snoc, seg_snoc] at hseg
  obtain ⟨⟨h1, hx⟩, _⟩ := hseg
  have hxL0 : x ∉ L0 := by
    have := (List.nodup_append.1 hnd).1
    intro hx
    exact (List.nodup_append.1 this).2.2 hx (List.mem_singleton_self x)
  rw [seg_snoc]
  refine ⟨seg_congr L0 _ _ (fun b hb => get_set_ne (fun hxb : x = b => hxL0 (hxb ▸ hb))) h1, ?_⟩
  obtain ⟨e, he, hp, _⟩ := node_iff.1 hx
  rw [hex] at he
  cases he
  exact node_iff.2 ⟨_, get_set_self hex, hp, rfl⟩

theorem remove_tail_spec {c : cache} {L0 : List Nat} {x t : Nat}
    (hL : Linked c (L0 ++ [x, t])) :
    ∃ c', dllist_remove_tail c = some (c', t) ∧ Linked c' (L0 ++ [x]) ∧ Frame c c' := by
  obtain ⟨hseg, hnd, hhead, htail⟩ := hL
  have htail' : c.tail = some t := by rw [htail]; simp
  have h2 : L0 ++ [x, t] = (L0 ++ [x]) ++ [t] := by simp
  have hseg' := hseg
  rw [h2, seg_snoc, last_or_snoc] at hseg'
  obtain ⟨et, het, hetp, _⟩ := node_iff.1 hseg'.2
  obtain ⟨ex, hex⟩ := seg_valid _ _ _ hseg x (by simp)
  simp only [dllist_remove_tail, htail', deref, het, hetp, store, hex, Option.bind_eq_bind,
    Option.some_bind, Option.some.injEq, Prod.mk.injEq, and_true, exists_eq_left']
  refine ⟨⟨unlink_tail_mem hnd hseg hex, ?_, ?_, ?_⟩, ⟨rfl, rfl, rfl, same_payload_set _ hex rfl, ?_⟩⟩
  · rw [h2] at hnd; exact (List.nodup_append.1 hnd).1
  · rw [hhead]; exact head?_snoc2 L0 x t
  · simp
  · simp

theorem remove_tail_fail {c : cache} {L : List Nat} (hL : Linked c L) (hlen : L.length ≤ 1) :
    dllist_remove_tail c = none := by
  obtain ⟨hseg, hnd, hhead, htail⟩ := hL
  match L, hlen with
  | [], _ =>
    simp only [List.getLast?_nil] at htail
    simp [dllist_remove_tail, htail]
  | [t], _ =>
    simp only [List.getLast?_singleton] at htail
    obtain ⟨et, het, hetp, _⟩ := node_iff.1 hseg.1
    simp [dllist_remove_tail, htail, deref, het, hetp, store]

theorem same_payload_get {m m' : List cache_entry} (h : same_payload m m') {a : Nat}
    {e : cache_entry} (he : m[a]? = some e) :
    ∃ e', m'[a]? = some e' ∧ payload_of e' = payload_of e := by
  have := h a
  simp only [payload_at, he, Option.map_some'] at this
  cases h' : m'[a]? with
  | none => rw [h'] at this; cases this
  | some e' =>
    rw [h'] at this
    exact ⟨e', rfl, by simpa using this⟩

theorem unlink_tail_spec {c : cache} {L0 : List Nat} {x a : Nat}
    (hL : Linked c (L0 ++ [x, a])) :
    ∃ c1, unlink c a = some c1 ∧ Linked c1 (L0 ++ [x]) ∧ Frame c c1 := by
  obtain ⟨hseg, hnd, hhead, htail⟩ := hL
  have htail' : c.tail = some a := by rw [htail]; simp
  have h2 : L0 ++ [x, a] = (L0 ++ [x]) ++ [a] := by simp
  have hseg' := hseg
  rw [h2, seg_snoc, last_or_snoc] at hseg'
  obtain ⟨et, het, hetp, _⟩ := node_iff.1 hseg'.2
  obtain ⟨ex, hex⟩ := seg_valid _ _ _ hseg x (by simp)
  simp only [unlink, htail', deref, het, hetp, store, hex, Option.bind_eq_bind,
    Option.some_bind, Option.some.injEq, if_true, exists_eq_left']
  refine ⟨⟨unlink_tail_mem hnd hseg hex, ?_, ?_, ?_⟩, ⟨rfl, rfl, rfl, same_payload_set _ hex rfl, ?_⟩⟩
  · rw [h2] at hnd; exact (List.nodup_append.1 hnd).1
  · rw [hhead]; exact head?_snoc2 L0 x a
  · simp
  · simp

theorem last_mid (L1 L2 : List Nat) (x a y : Nat) :
    (L1 ++ [x] ++ a :: y :: L2).getLast? = (y :: L2).getLast? := by
  rw [List.getLast?_append_cons, List.getLast?_cons_cons]

theorem unlink_mid_spec {c : cache} {L1 L2 : List Nat} {x a y : Nat}
    (hL : Linked c (L1 ++ [x] ++ a :: y :: L2)) :
    ∃ c1, unlink c a = some c1 ∧ Linked c1 (L1 ++ [x] ++ y :: L2) ∧ Frame c c1 := by
  obtain ⟨hseg, hnd, hhead, htail⟩ := hL
  -- the facts that no two of the cells involved coincide
  have hnd' := List.nodup_append.1 hnd
  have hnd1 := List.nodup_append.1 hnd'.1
  have hnd2 := List.nodup_cons.1 hnd'.2.1
  have hnd3 := List.nodup_cons.1 hnd2.2
  have hxa : x ≠ a := fun h =>
    hnd'.2.2 (by simp : x ∈ L1 ++ [x]) (by simp [h] : x ∈ a :: y :: L2)
  have hxy : x ≠ y := fun h =>
    hnd'.2.2 (by simp : x ∈ L1 ++ [x]) (by simp [h] : x ∈ a :: y :: L2)
  have hay : a ≠ y := fun h => hnd2.1 (by simp [h])
  have hxL1 : x ∉ L1 := fun h => hnd1.2.2 h (List.mem_singleton_self x)
  have hyL1 : y ∉ L1 := fun h =>
    hnd'.2.2 (by simp [h] : y ∈ L1 ++ [x]) (by simp : y ∈ a :: y :: L2)
  have hxL2 : x ∉ L2 := fun h =>
    hnd'.2.2 (by simp : x ∈ L1 ++ [x]) (by simp [h] : x ∈ a :: y :: L2)
  have hyL2 : y ∉ L2 := hnd3.1
  have haL2 : a ∉ L2 := fun h => hnd2.1 (by simp [h])
  -- the tail is not `a`
  have htne : some a ≠ c.tail := by
    rw [htail]
    rw [last_mid L1 L2 x a y]
    intro h
    have hm := List.mem_of_getLast?_eq_some h.symm
    rcases List.mem_cons.1 hm with h1 | h1
    · exact hay h1
    · exact haL2 h1
  -- the links around `a`
  have hseg' := hseg
  rw [seg_append, last_or_snoc, seg_snoc, seg_cons, seg_cons] at hseg'
  obtain ⟨⟨hs1, hnx⟩, hna, hny, hs2⟩ := hseg'
  obtain ⟨ex, hex, hexp, _⟩ := node_iff.1 hnx
  obtain ⟨ea, hea, heap, hean⟩ := node_iff.1 hna
  obtain ⟨ey, hey, _, heyn⟩ := node_iff.1 hny
  simp only [first_or] at hean
  have hea1 : (c.mem.set x { ex with next := some y })[a]? = some ea := by
    rw [get_set_ne hxa]; exact hea
  have hey1 : (c.mem.set x { ex with next := some y })[y]? = some ey := by
    rw [get_set_ne hxy]; exact hey
  simp only [unlink, if_neg htne, deref, hea, heap, hean, store, hex, hea1, hey1,
    Option.bind_eq_bind, Option.some_bind, Option.some.injEq, exists_eq_left']
  refine ⟨⟨?_, ?_, ?_, ?_⟩, ⟨rfl, rfl, rfl, ?_, by simp⟩⟩
  · rw [seg_append, last_or_snoc, seg_snoc, seg_cons]
    refine ⟨⟨?_, ?_⟩, ?_, ?_⟩
    · refine seg_congr L1 _ _ (fun b hb => ?_) hs1
      rw [get_set_ne (fun h : y = b => hyL1 (h ▸ hb)), get_set_ne (fun h : x = b => hxL1 (h ▸ hb))]
    · refine node_iff.2 ⟨{ ex with next := some y }, ?_, hexp, rfl⟩
      rw [get_set_ne hxy.symm]; exact get_set_self hex
    · exact node_iff.2 ⟨{ ey with prev := some x }, get_set_self hey1, rfl, heyn⟩
    · refine seg_congr L2 _ _ (fun b hb => ?_) hs2
      rw [get_set_ne (fun h : y = b => hyL2 (h ▸ hb)), get_set_ne (fun h : x = b => hxL2 (h ▸ hb))]
  · exact List.Nodup.sublist (List.Sublist.append (List.Sublist.refl _) (List.sublist_cons_self _ _)) hnd
  · rw [hhead]; cases L1 <;> rfl
  · rw [htail, last_mid L1 L2 x a y, List.getLast?_append_cons]
  · exact same_payload_trans (same_payload_set { ex with next := some y } hex rfl)
      (same_payload_set { ey with prev := some x } hey1 rfl)

theorem Frame.refl (c : cache) : Frame c c := ⟨rfl, rfl, rfl, same_payload_refl _, rfl⟩

theorem Frame.trans {c1 c2 c3 : cache} (h1 : Frame c1 c2) (h2 : Frame c2 c3) : Frame c1 c3 :=
  ⟨h2.index_eq.trans h1.index_eq, h2.max_eq.trans h1.max_eq, h2.cur_eq.trans h1.cur_eq,
    same_payload_trans h1.payload h2.payload, h2.length_eq.trans h1.length_eq⟩

theorem relink_spec {c1 : cache} {h : Nat} {l : List Nat} {a : Nat} {e : cache_entry}
    (hL : Linked c1 (h :: l)) (ha : a ∉ h :: l) (he : c1.mem[a]? = some e) :
    ∃ c', relink c1 a = some c' ∧ Linked c' (a :: h :: l) ∧ Frame c1 c' := by
  obtain ⟨hseg, hnd, hhead, htail⟩ := hL
  simp only [List.head?_cons] at hhead
  rw [seg_cons] at hseg
  obtain ⟨eh, heh, hehp, hehn⟩ := node_iff.1 hseg.1
  have hah : a ≠ h := fun hh => ha (hh ▸ List.mem_cons_self _ _)
  have hal : a ∉ l := fun hh => ha (List.mem_cons_of_mem _ hh)
  have hhl : h ∉ l := (List.nodup_cons.1 hnd).1
  have e3 : (c1.mem.set a { e with next := some h })[h]? = some eh := by
    rw [get_set_ne hah]; exact heh
  have e3a : (c1.mem.set a { e with next := some h })[a]? = some { e with next := some h } :=
    get_set_self he
  have e4 : ((c1.mem.set a { e with next := some h }).set h { eh with prev := some a })[a]? =
      some { e with next := some h } := by
    rw [get_set_ne hah.symm]; exact e3a
  simp only [relink, hhead, store, he, e3, e4, Option.bind_eq_bind, Option.some_bind,
    Option.some.injEq, exists_eq_left']
  refine ⟨⟨⟨node_iff.2 ⟨_, get_set_self e4, rfl, rfl⟩,
      node_iff.2 ⟨{ eh with prev := some a }, ?_, rfl, hehn⟩, ?_⟩,
      List.nodup_cons.2 ⟨ha, hnd⟩, rfl, ?_⟩, ⟨rfl, rfl, rfl, ?_, by simp⟩⟩
  · rw [get_set_ne hah]; exact get_set_self e3
  · refine seg_congr l _ _ (fun b hb => ?_) hseg.2
    rw [get_set_ne (fun hab : a = b => hal (hab ▸ hb)),
      get_set_ne (fun hab : h = b => hhl (hab ▸ hb)),
      get_set_ne (fun hab : a = b => hal (hab ▸ hb))]
  · rw [htail]; simp [List.getLast?_cons_cons]
  · exact same_payload_trans (same_payload_trans
      (same_payload_set { e with next := some h } he rfl)
      (same_payload_set { eh with prev := some a } e3 rfl))
      (same_payload_set { e with next := some h, prev := none } e4 rfl)

theorem erase_mid {A B : List Nat} {a : Nat} (h : a ∉ A) : (A ++ a :: B).erase a = A ++ B := by
  rw [List.erase_append_right _ h, List.erase_cons_head]

theorem move_to_head_spec {c : cache} {L : List Nat} {a : Nat} (hL : Linked c L) (ha : a ∈ L) :
    ∃ c', dllist_move_to_head c a = some c' ∧ Linked c' (a :: L.erase a) ∧ Frame c c' := by
  obtain ⟨s, t, rfl⟩ := List.append_of_mem ha
  have hnd := hL.nodup
  have has : a ∉ s := fun h =>
    (List.nodup_append.1 hnd).2.2 h (List.mem_cons_self a t)
  rw [move_to_head_eq, erase_mid has]
  rcases List.eq_nil_or_concat s with rfl | ⟨L1, x, rfl⟩
  · -- `a` is the head
    have hh : c.head = some a := by rw [hL.head_eq]; rfl
    rw [if_neg (by simp [hh])]
    exact ⟨c, rfl, hL, Frame.refl c⟩
  · rw [List.concat_eq_append] at hL has hnd ⊢
    have hne : some a ≠ c.head := by
      rw [hL.head_eq]
      intro h
      have hm : a ∈ L1 ++ [x] := by
        cases L1 with
        | nil => simp at h; simp [h]
        | cons b l => simp at h; simp [h]
      exact has hm
    rw [if_pos hne]
    have hval := seg_valid _ _ _ hL.links a (by simp)
    obtain ⟨ea, hea⟩ := hval
    cases t with
    | nil =>
      have hL' : Linked c (L1 ++ [x, a]) := by simpa using hL
      obtain ⟨c1, h1, hL1, hF1⟩ := unlink_tail_spec hL'
      obtain ⟨ea', hea', _⟩ := same_payload_get hF1.payload hea
      have hsplit : L1 ++ [x] ++ [] = L1 ++ [x] := by simp
      rw [hsplit]
      cases hL1x : L1 ++ [x] with
      | nil => simp at hL1x
      | cons h l =>
        rw [hL1x] at hL1 has
        obtain ⟨c', h2, hL2, hF2⟩ := relink_spec hL1 has hea'
        exact ⟨c', by rw [h1]; exact h2, hL2, hF1.trans hF2⟩
    | cons y L2 =>
      obtain ⟨c1, h1, hL1, hF1⟩ := unlink_mid_spec hL
      obtain ⟨ea', hea', _⟩ := same_payload_get hF1.payload hea
      have hay : a ∉ L1 ++ [x] ++ y :: L2 := by
        intro h
        rcases List.mem_append.1 h with h | h
        · exact has h
        · exact (List.nodup_cons.1 (List.nodup_append.1 hnd).2.1).1 h
      cases hL1x : L1 ++ [x] ++ y :: L2 with
      | nil => simp at hL1x
      | cons h l =>
        rw [hL1x] at hL1 hay
        obtain ⟨c', h2, hL2, hF2⟩ := relink_spec hL1 hay hea'
        exact ⟨c', by rw [h1]; exact h2, hL2, hF1.trans hF2⟩

/-! ## The hash index -/

theorem find_filter_ne (t : hashtable) {k k' : String} (h : k' ≠ k) :
    (t.filter (fun kv => kv.1 ≠ k)).find? (fun kv => kv.1 = k') =
      t.find? (fun kv => kv.1 = k') := by
  induction t with
  | nil => rfl
  | cons kv t ih =>
    by_cases h1 : kv.1 = k
    · have h2 : ¬ kv.1 = k' := fun e => h (e.symm.trans h1)
      rw [List.filter_cons_of_neg (by simpa using h1), List.find?_cons_of_neg _ (by simpa using h2)]
      exact ih
    · rw [List.filter_cons_of_pos (by simpa using h1)]
      by_cases h2 : kv.1 = k'
      · rw [List.find?_cons_of_pos _ (by simpa using h2), List.find?_cons_of_pos _ (by simpa using h2)]
      · rw [List.find?_cons_of_neg _ (by simpa using h2), List.find?_cons_of_neg _ (by simpa using h2)]
        exact ih

theorem find_filter_eq (t : hashtable) (k : String) :
    (t.filter (fun kv => kv.1 ≠ k)).find? (fun kv => kv.1 = k) = none := by
  induction t with
  | nil => rfl
  | cons kv t ih =>
    by_cases h1 : kv.1 = k
    · rw [List.filter_cons_of_neg (by simpa using h1)]
      exact ih
    · rw [List.filter_cons_of_pos (by simpa using h1), List.find?_cons_of_neg _ (by simpa using h1)]
      exact ih

theorem get_put (ht : hashtable) (k : String) (v : Nat) (k' : String) :
    hashtable_get (hashtable_put ht k v) k' =
      if k' = k then some v else hashtable_get ht k' := by
  unfold hashtable_get hashtable_put
  by_cases h : k' = k
  · subst h
    rw [List.find?_cons_of_pos _ (by simp), if_pos rfl]
    rfl
  · have h' : ¬ k = k' := fun e => h e.symm
    rw [List.find?_cons_of_neg _ (by simpa using h'), if_neg h, find_filter_ne ht h]

theorem get_delete (ht : hashtable) (k k' : String) :
    hashtable_get (hashtable_delete ht k) k' =
      if k' = k then none else hashtable_get ht k' := by
  unfold hashtable_get hashtable_delete
  by_cases h : k' = k
  · subst h
    rw [find_filter_eq, if_pos rfl]
    rfl
  · rw [if_neg h, find_filter_ne ht h]

theorem get_eq_none_iff (ht : hashtable) (k : String) :
    hashtable_get ht k = none ↔ k ∉ ht.map Prod.fst := by
  unfold hashtable_get
  induction ht with
  | nil => simp
  | cons kv t ih =>
    by_cases h : kv.1 = k
    · rw [List.find?_cons_of_pos _ (by simpa using h)]
      simp [h]
    · have h' : ¬ k = kv.1 := fun e => h e.symm
      rw [List.find?_cons_of_neg _ (by simpa using h), ih]
      simp [h']

theorem get_eq_some_iff {ht : hashtable} (hnd : (ht.map Prod.fst).Nodup) (k : String) (v : Nat) :
    hashtable_get ht k = some v ↔ (k, v) ∈ ht := by
  induction ht with
  | nil => simp [hashtable_get]
  | cons kv t ih =>
    rw [List.map_cons, List.nodup_cons] at hnd
    have ih' := ih hnd.2
    by_cases h : kv.1 = k
    · have hk : k ∉ t.map Prod.fst := h ▸ hnd.1
      have hnot : (k, v) ∉ t := fun hm => hk (List.mem_map.2 ⟨(k, v), hm, rfl⟩)
      have : hashtable_get (kv :: t) k = some kv.2 := by
        unfold hashtable_get
        rw [List.find?_cons_of_pos _ (by simpa using h)]
        rfl
      rw [this, List.mem_cons]
      obtain ⟨k0, v0⟩ := kv
      simp only at h
      subst h
      constructor
      · intro e
        simp only [Option.some.injEq] at e
        exact Or.inl (by rw [e])
      · intro e
        rcases e with e | e
        · simp only [Prod.mk.injEq, true_and] at e
          rw [e]
        · exact absurd e hnot
    · have hne : (k, v) ≠ kv := fun e => h (e ▸ rfl)
      have : hashtable_get (kv :: t) k = hashtable_get t k := by
        unfold hashtable_get
        rw [List.find?_cons_of_neg _ (by simpa using h)]
      rw [this, ih', List.mem_cons]
      exact ⟨Or.inr, fun h1 => h1.resolve_left hne⟩

/-! ## Reading the list back -/

theorem nodup_length_le {L : List Nat} {n : Nat} (hnd : L.Nodup) (hlt : ∀ a ∈ L, a < n) :
    L.length ≤ n := by
  have hsub : L ⊆ List.range n := fun a ha => List.mem_range.2 (hlt a ha)
  have := (List.subperm_of_subset hnd hsub).length_le
  simpa using this

theorem first_or_none (L : List Nat) : first_or L none = L.head? := by
  cases L <;> rfl

theorem last_or_none (L : List Nat) : last_or L none = L.getLast? := by
  induction L using List.reverseRecOn with
  | nil => rfl
  | append_singleton l a _ => rw [last_or_snoc, List.getLast?_concat]

theorem walk_next_seg {m : List cache_entry} :
    ∀ (L : List Nat) (p : Option Nat) (fuel : Nat), seg m p L none → L.length ≤ fuel →
      walk_next m fuel (first_or L none) = L
  | [], _, fuel, _, _ => by cases fuel <;> rfl
  | a :: l, p, 0, _, hlen => by simp at hlen
  | a :: l, p, fuel + 1, h, hlen => by
    obtain ⟨e, he, _, hn⟩ := node_iff.1 h.1
    have ih := walk_next_seg l (some a) fuel h.2 (by simpa using hlen)
    show walk_next m (fuel + 1) (some a) = a :: l
    simp only [walk_next, he, hn]
    rw [ih]

theorem walk_prev_seg {m : List cache_entry} (L : List Nat) :
    ∀ (n : Option Nat) (fuel : Nat), seg m none L n → L.length ≤ fuel →
      walk_prev m fuel (last_or L none) = L.reverse := by
  induction L using List.reverseRecOn with
  | nil => intro n fuel _ _; cases fuel <;> rfl
  | append_singleton l a ih =>
    intro n fuel h hlen
    rw [seg_snoc] at h
    obtain ⟨e, he, hp, _⟩ := node_iff.1 h.2
    cases fuel with
    | zero => simp at hlen
    | succ fuel =>
      have ih' := ih (some a) fuel h.1 (by simpa using hlen)
      rw [last_or_snoc, List.reverse_append]
      simp only [walk_prev, he, hp, List.reverse_cons, List.reverse_nil, List.nil_append,
        List.singleton_append]
      rw [ih']

theorem Linked.length_le {c : cache} {L : List Nat} (h : Linked c L) : L.length ≤ c.mem.length :=
  nodup_length_le h.nodup (fun a ha => by
    obtain ⟨e, he⟩ := seg_valid _ _ _ h.links a ha
    exact get_lt he)

theorem Linked.recency_list_eq {c : cache} {L : List Nat} (h : Linked c L) :
    recency_list c = L := by
  unfold recency_list
  rw [h.head_eq, ← first_or_none]
  exact walk_next_seg L none _ h.links h.length_le

theorem Linked.recency_list_back_eq {c : cache} {L : List Nat} (h : Linked c L) :
    recency_list_back c = L.reverse := by
  unfold recency_list_back
  rw [h.tail_eq, ← last_or_none]
  exact walk_prev_seg L none _ h.links h.length_le

theorem Linked.congr {c c' : cache} {L : List Nat} (h : Linked c L) (hm : c'.mem = c.mem)
    (hh : c'.head = c.head) (ht : c'.tail = c.tail) : Linked c' L :=
  ⟨hm ▸ h.links, h.nodup, hh.trans h.head_eq, ht.trans h.tail_eq⟩

theorem Linked.fresh {c : cache} {L : List Nat} (h : Linked c L) : c.mem.length ∉ L := by
  intro hm
  obtain ⟨e, he⟩ := seg_valid _ _ _ h.links _ hm
  exact absurd (get_lt he) (lt_irrefl _)

theorem Linked.alloc {c : cache} {L : List Nat} (h : Linked c L) (x : cache_entry) :
    Linked { c with mem := c.mem ++ [x] } L := by
  refine ⟨seg_congr L _ _ (fun b hb => ?_) h.links, h.nodup, h.head_eq, h.tail_eq⟩
  obtain ⟨e, he⟩ := seg_valid _ _ _ h.links b hb
  exact List.getElem?_append_left (get_lt he)

/-! ## `cache_put` and `cache_get` on the list structure -/

theorem put_notfull {c : cache} {L : List Nat} (hL : Linked c L)
    (hne : c.cur_size ≠ c.max_size) (k ct : String) (d : List Nat) (n : Int) :
    ∃ c', cache_put c k ct d n = some c' ∧ Linked c' (c.mem.length :: L) ∧
      c'.index = hashtable_put c.index k c.mem.length ∧ c'.max_size = c.max_size ∧
      c'.cur_size = c.cur_size + 1 ∧ same_payload (alloc_entry c.mem k ct d n).1 c'.mem := by
  have hnew : (alloc_entry c.mem k ct d n).1[c.mem.length]? =
      some { path := k, content_type := ct, content_length := n, content := strdup d,
             prev := none, next := none } := by
    simp [alloc_entry]
  obtain ⟨c2, h2, hL2, hF2⟩ := insert_head_spec (hL.alloc _) hL.fresh hnew
  obtain ⟨e2, he2, hp2⟩ := same_payload_get hF2.payload hnew
  have hk : e2.path = k := congrArg Prod.fst hp2
  simp only [cache_put, alloc_entry, if_neg hne, h2, deref, he2, hk, Option.bind_eq_bind,
    Option.some_bind, Option.some.injEq, exists_eq_left']
  exact ⟨hL2.congr rfl rfl rfl, by rw [hF2.index_eq], hF2.max_eq, by rw [hF2.cur_eq], hF2.payload⟩

theorem key_at_eq {m : List cache_entry} {a : Nat} {e : cache_entry} (h : m[a]? = some e) :
    key_at m a = e.path := by
  simp [key_at, h]

theorem same_payload_key {m m' : List cache_entry} (h : same_payload m m') (a : Nat) :
    key_at m' a = key_at m a := by
  cases h2 : m[a]? with
  | some e =>
    obtain ⟨e', he', hp⟩ := same_payload_get h h2
    rw [key_at_eq he', key_at_eq h2]
    exact congrArg Prod.fst hp
  | none =>
    have h1 : m'[a]? = none := by
      have := h a
      simpa [payload_at, h2] using this
    simp [key_at, h1, h2]

theorem put_full {c : cache} {L0 : List Nat} {x t : Nat} (hL : Linked c (L0 ++ [x, t]))
    (hfull : c.cur_size = c.max_size) (k ct : String) (d : List Nat) (n : Int) :
    ∃ c', cache_put c k ct d n = some c' ∧ Linked c' (c.mem.length :: (L0 ++ [x])) ∧
      c'.index = hashtable_put (hashtable_delete c.index (key_at c.mem t)) k c.mem.length ∧
      c'.max_size = c.max_size ∧ c'.cur_size = c.cur_size ∧
      same_payload (alloc_entry c.mem k ct d n).1 c'.mem := by
  have hnew : (alloc_entry c.mem k ct d n).1[c.mem.length]? =
      some { path := k, content_type := ct, content_length := n, content := strdup d,
             prev := none, next := none } := by
    simp [alloc_entry]
  obtain ⟨et, het⟩ := seg_valid _ _ _ hL.links t (by simp)
  have het0 : (alloc_entry c.mem k ct d n).1[t]? = some et := by
    simp only [alloc_entry]
    rw [List.getElem?_append_left (get_lt het)]; exact het
  obtain ⟨c1, h1, hL1, hF1⟩ := remove_tail_spec (hL.alloc _)
  obtain ⟨o, ho, hpo⟩ := same_payload_get hF1.payload het0
  have hok : o.path = key_at c.mem t := by
    rw [key_at_eq het]; exact congrArg Prod.fst hpo
  obtain ⟨e1, he1, hp1⟩ := same_payload_get hF1.payload hnew
  have hfresh : c.mem.length ∉ L0 ++ [x] := fun hm =>
    hL.fresh (by
      rcases List.mem_append.1 hm with h | h
      · exact List.mem_append_left _ h
      · exact List.mem_append_right _ (by simp at h; simp [h]))
  have hL1' : Linked { c1 with index := hashtable_delete c1.index o.path,
                               cur_size := c1.cur_size - 1 } (L0 ++ [x]) :=
    hL1.congr rfl rfl rfl
  obtain ⟨c2, h2, hL2, hF2⟩ := insert_head_spec hL1' hfresh he1
  obtain ⟨e2, he2, hp2⟩ := same_payload_get hF2.payload he1
  have hk : e2.path = k := (congrArg Prod.fst hp2).trans (congrArg Prod.fst hp1)
  unfold cache_put
  simp only [alloc_entry]
  rw [if_pos hfull]
  simp only [h1, deref, ho, h2, he2, hk,
    Option.bind_eq_bind, Option.some_bind, Option.some.injEq, exists_eq_left']
  refine ⟨hL2.congr rfl rfl rfl, ?_, ?_, ?_, same_payload_trans hF1.payload hF2.payload⟩
  · show hashtable_put c2.index k c.mem.length = _
    rw [hF2.index_eq]
    show hashtable_put (hashtable_delete c1.index o.path) k c.mem.length = _
    rw [hF1.index_eq, hok]
  · show c2.max_size = _
    rw [hF2.max_eq]
    exact hF1.max_eq
  · show c2.cur_size + 1 = _
    rw [hF2.cur_eq]
    show c1.cur_size - 1 + 1 = _
    rw [hF1.cur_eq]
    show c.cur_size - 1 + 1 = c.cur_size
    omega

theorem put_fail {c : cache} {L : List Nat} (hL : Linked c L) (hfull : c.cur_size = c.max_size)
    (hlen : L.length ≤ 1) (k ct : String) (d : List Nat) (n : Int) :
    cache_put c k ct d n = none := by
  have h1 := remove_tail_fail (hL.alloc ⟨k, ct, n, strdup d, none, none⟩) hlen
  unfold cache_put
  simp only [alloc_entry]
  rw [if_pos hfull]
  simp only [h1, Option.bind_eq_bind, Option.none_bind]

/-! ## The structural invariant -/

theorem Represents.index_keys {c : cache} {L : List Nat} (h : Represents c L) :
    List.Perm (c.index.map Prod.fst) (L.map (key_at c.mem)) := by
  have := h.index_perm.map Prod.fst
  simpa [List.map_map, Function.comp_def] using this

theorem Represents.index_nodup {c : cache} {L : List Nat} (h : Represents c L) :
    (c.index.map Prod.fst).Nodup :=
  h.index_keys.nodup_iff.2 h.keys_nodup

theorem Represents.get_some_iff {c : cache} {L : List Nat} (h : Represents c L) (k : String)
    (a : Nat) : hashtable_get c.index k = some a ↔ a ∈ L ∧ key_at c.mem a = k := by
  rw [get_eq_some_iff h.index_nodup, h.index_perm.mem_iff, List.mem_map]
  constructor
  · rintro ⟨b, hb, e⟩
    simp only [Prod.mk.injEq] at e
    obtain ⟨e1, e2⟩ := e
    subst e2
    exact ⟨hb, e1⟩
  · rintro ⟨ha, e⟩
    exact ⟨a, ha, by rw [e]⟩

theorem Represents.get_none_iff {c : cache} {L : List Nat} (h : Represents c L) (k : String) :
    hashtable_get c.index k = none ↔ k ∉ L.map (key_at c.mem) := by
  rw [get_eq_none_iff, h.index_keys.mem_iff]

theorem Represents.index_sound {c : cache} {L : List Nat} (h : Represents c L) :
    IndexSound c L := by
  intro kv hkv
  have := (h.get_some_iff kv.1 kv.2).1 ((get_eq_some_iff h.index_nodup kv.1 kv.2).2 hkv)
  exact this

theorem create_represents (max_size hashsize : Int) :
    Represents (cache_create max_size hashsize) [] :=
  ⟨⟨trivial, List.nodup_nil, rfl, rfl⟩, rfl, List.Perm.refl _, List.nodup_nil⟩

theorem filter_fresh (ht : hashtable) (k : String) (h : k ∉ ht.map Prod.fst) :
    ht.filter (fun kv => kv.1 ≠ k) = ht := by
  rw [List.filter_eq_self]
  intro kv hkv
  have : kv.1 ≠ k := fun e => h (List.mem_map.2 ⟨kv, hkv, e⟩)
  simpa using this

theorem alloc_key {m : List cache_entry} {a : Nat} {e : cache_entry} (h : m[a]? = some e)
    (x : cache_entry) : key_at (m ++ [x]) a = key_at m a := by
  unfold key_at
  rw [List.getElem?_append_left (get_lt h)]

/-- A put of a fresh key into a cache that is not full. -/
theorem put_fresh_notfull {c : cache} {L : List Nat} (h : Represents c L)
    (hne : c.cur_size ≠ c.max_size) (k ct : String) (d : List Nat) (n : Int)
    (hk : k ∉ L.map (key_at c.mem)) :
    ∃ c', cache_put c k ct d n = some c' ∧ Represents c' (c.mem.length :: L) ∧
      c'.max_size = c.max_size ∧ same_payload (alloc_entry c.mem k ct d n).1 c'.mem := by
  obtain ⟨c', hrun, hL', hidx, hmax, hcur, hpay⟩ := put_notfull h.linked hne k ct d n
  have hkeys : ∀ b ∈ L, key_at c'.mem b = key_at c.mem b := by
    intro b hb
    obtain ⟨e, he⟩ := seg_valid _ _ _ h.linked.links b hb
    rw [same_payload_key hpay b]
    exact alloc_key he _
  have hknew : key_at c'.mem c.mem.length = k := by
    rw [same_payload_key hpay]
    simp [key_at, alloc_entry]
  have hmap : L.map (key_at c'.mem) = L.map (key_at c.mem) := List.map_congr_left hkeys
  have hmap2 : L.map (fun a => (key_at c'.mem a, a)) = L.map (fun a => (key_at c.mem a, a)) :=
    List.map_congr_left (fun b hb => by rw [hkeys b hb])
  refine ⟨c', hrun, ⟨hL', ?_, ?_, ?_⟩, hmax, hpay⟩
  · rw [hcur, h.size_eq]; simp
  · rw [hidx, hashtable_put, filter_fresh _ _ (by rw [h.index_keys.mem_iff]; exact hk),
      List.map_cons, hknew, hmap2]
    exact List.Perm.cons _ h.index_perm
  · rw [List.map_cons, hknew, hmap]
    exact List.nodup_cons.2 ⟨hk, h.keys_nodup⟩

/-- A put of a fresh key into a full cache with at least two entries: the
tail `t` leaves the list. -/
theorem put_fresh_full {c : cache} {L0 : List Nat} {x t : Nat} (h : Represents c (L0 ++ [x, t]))
    (hfull : c.cur_size = c.max_size) (k ct : String) (d : List Nat) (n : Int)
    (hk : k ∉ (L0 ++ [x, t]).map (key_at c.mem)) :
    ∃ c', cache_put c k ct d n = some c' ∧ Represents c' (c.mem.length :: (L0 ++ [x])) ∧
      c'.max_size = c.max_size ∧ same_payload (alloc_entry c.mem k ct d n).1 c'.mem := by
  obtain ⟨c', hrun, hL', hidx, hmax, hcur, hpay⟩ := put_full h.linked hfull k ct d n
  have hkeys : ∀ b ∈ L0 ++ [x, t], key_at c'.mem b = key_at c.mem b := by
    intro b hb
    obtain ⟨e, he⟩ := seg_valid _ _ _ h.linked.links b hb
    rw [same_payload_key hpay b]
    exact alloc_key he _
  have hsub : ∀ b ∈ L0 ++ [x], b ∈ L0 ++ [x, t] := by
    intro b hb
    rcases List.mem_append.1 hb with h1 | h1
    · exact List.mem_append_left _ h1
    · exact List.mem_append_right _ (by simp at h1; simp [h1])
  have hknew : key_at c'.mem c.mem.length = k := by
    rw [same_payload_key hpay]
    simp [key_at, alloc_entry]
  have hmap : (L0 ++ [x]).map (key_at c'.mem) = (L0 ++ [x]).map (key_at c.mem) :=
    List.map_congr_left (fun b hb => hkeys b (hsub b hb))
  have hmap2 : (L0 ++ [x]).map (fun a => (key_at c'.mem a, a)) =
      (L0 ++ [x]).map (fun a => (key_at c.mem a, a)) :=
    List.map_congr_left (fun b hb => by rw [hkeys b (hsub b hb)])
  -- the keys of the remaining entries differ from the evicted key
  have hsplit : L0 ++ [x, t] = (L0 ++ [x]) ++ [t] := by simp
  have hnd := h.keys_nodup
  rw [hsplit, List.map_append, List.nodup_append] at hnd
  have hother : ∀ b ∈ L0 ++ [x], key_at c.mem b ≠ key_at c.mem t := by
    intro b hb e
    exact hnd.2.2 (List.mem_map.2 ⟨b, hb, rfl⟩) (by simp [e])
  have hdel : List.Perm (hashtable_delete c.index (key_at c.mem t))
      ((L0 ++ [x]).map (fun a => (key_at c.mem a, a))) := by
    unfold hashtable_delete
    refine (h.index_perm.filter _).trans ?_
    rw [hsplit, List.map_append, List.filter_append]
    have e1 : ((L0 ++ [x]).map (fun a => (key_at c.mem a, a))).filter
        (fun kv => kv.1 ≠ key_at c.mem t) = (L0 ++ [x]).map (fun a => (key_at c.mem a, a)) := by
      rw [List.filter_eq_self]
      intro kv hkv
      obtain ⟨b, hb, rfl⟩ := List.mem_map.1 hkv
      simpa using hother b hb
    have e2 : ([t].map (fun a => (key_at c.mem a, a))).filter
        (fun kv => kv.1 ≠ key_at c.mem t) = [] := by
      simp
    rw [e1, e2, List.append_nil]
  have hk' : k ∉ (L0 ++ [x]).map (key_at c.mem) := by
    intro hm
    obtain ⟨b, hb, e⟩ := List.mem_map.1 hm
    exact hk (List.mem_map.2 ⟨b, hsub b hb, e⟩)
  have hkdel : k ∉ (hashtable_delete c.index (key_at c.mem t)).map Prod.fst := by
    have hp := hdel.map Prod.fst
    rw [hp.mem_iff]
    simpa [List.map_map, Function.comp_def] using hk'
  refine ⟨c', hrun, ⟨hL', ?_, ?_, ?_⟩, hmax, hpay⟩
  · rw [hcur, h.size_eq]; simp; omega
  · rw [hidx, hashtable_put, filter_fresh _ _ hkdel, List.map_cons, hknew, hmap2]
    exact List.Perm.cons _ hdel
  · rw [List.map_cons, hknew, hmap]
    exact List.nodup_cons.2 ⟨hk', hnd.1⟩

/-- A hit of `cache_get`. -/
theorem get_hit {c : cache} {L : List Nat} (h : Represents c L) {k : String} {a : Nat}
    (hget : hashtable_get c.index k = some a) :
    ∃ c', cache_get c k = some (c', some a) ∧ Represents c' (a :: L.erase a) ∧ Frame c c' := by
  obtain ⟨ha, _⟩ := (h.get_some_iff k a).1 hget
  obtain ⟨c', hrun, hL', hF⟩ := move_to_head_spec h.linked ha
  have hperm : List.Perm L (a :: L.erase a) := List.perm_cons_erase ha
  have hkeyf : key_at c'.mem = key_at c.mem := funext (same_payload_key hF.payload)
  refine ⟨c', by simp [cache_get, hget, hrun], ⟨hL', ?_, ?_, ?_⟩, hF⟩
  · rw [hF.cur_eq, h.size_eq, hperm.length_eq]
  · rw [hF.index_eq, hkeyf]
    exact h.index_perm.trans (hperm.map _)
  · rw [hkeyf]
    exact (hperm.map _).nodup_iff.1 h.keys_nodup

/-- A miss of `cache_get` changes nothing. -/
theorem get_miss {c : cache} {k : String} (hget : hashtable_get c.index k = none) :
    cache_get c k = some (c, none) := by
  simp [cache_get, hget]

/-! ## The operations on the list of keys -/

theorem Represents.well_formed {c : cache} {L : List Nat} (h : Represents c L) :
    well_formed c := by
  unfold CWebServer.well_formed
  rw [h.linked.recency_list_eq]
  exact h

theorem Represents.keys_eq {c : cache} {L : List Nat} (h : Represents c L) :
    recency_keys c = L.map (key_at c.mem) := by
  unfold recency_keys
  rw [h.linked.recency_list_eq]

theorem alloc_payload_old {m m' : List cache_entry} {k ct : String} {d : List Nat} {n : Int}
    (hpay : same_payload (alloc_entry m k ct d n).1 m') {a : Nat} {e : cache_entry}
    (he : m[a]? = some e) : payload_at m' a = payload_at m a := by
  rw [hpay a]
  unfold payload_at alloc_entry
  rw [List.getElem?_append_left (get_lt he)]

theorem alloc_payload_new {m m' : List cache_entry} {k ct : String} {d : List Nat} {n : Int}
    (hpay : same_payload (alloc_entry m k ct d n).1 m') :
    payload_at m' m.length = some (k, ct, strdup d, n) := by
  rw [hpay m.length]
  simp [payload_at, alloc_entry, payload_of]

theorem exists_snoc2 {L : List Nat} (h : 2 ≤ L.length) : ∃ L0 x t, L = L0 ++ [x, t] := by
  rcases List.eq_nil_or_concat L with rfl | ⟨L1, t, rfl⟩
  · simp at h
  · rcases List.eq_nil_or_concat L1 with rfl | ⟨L0, x, rfl⟩
    · simp at h
    · exact ⟨L0, x, t, by simp⟩

theorem dropLast_snoc2 {α : Type} (L0 : List α) (x t : α) : (L0 ++ [x, t]).dropLast = L0 ++ [x] := by
  have : L0 ++ [x, t] = (L0 ++ [x]) ++ [t] := by simp
  rw [this, List.dropLast_concat]

theorem map_erase_nodup {L : List Nat} (f : Nat → String) (hnd : (L.map f).Nodup) {a : Nat}
    (ha : a ∈ L) : (L.erase a).map f = (L.map f).erase (f a) := by
  obtain ⟨s, t, rfl⟩ := List.append_of_mem ha
  rw [List.map_append, List.map_cons, List.nodup_append] at hnd
  have h1 : a ∉ s := fun h => hnd.2.2 (List.mem_map.2 ⟨a, h, rfl⟩) (List.mem_cons_self _ _)
  have h2 : f a ∉ s.map f := fun h => hnd.2.2 h (List.mem_cons_self _ _)
  rw [erase_mid h1, List.map_append, List.map_append, List.map_cons,
    List.erase_append_right _ h2, List.erase_cons_head]

/-- A put of a fresh key into a well-formed cache that is not full. -/
theorem put_keys_notfull {c : cache} (hwf : well_formed c) (hne : c.cur_size ≠ c.max_size)
    (k ct : String) (d : List Nat) (n : Int) (hk : k ∉ recency_keys c) :
    ∃ c', cache_put c k ct d n = some c' ∧ well_formed c' ∧
      recency_list c' = c.mem.length :: recency_list c ∧
      recency_keys c' = k :: recency_keys c ∧
      c'.max_size = c.max_size ∧ c'.cur_size = c.cur_size + 1 ∧
      same_payload (alloc_entry c.mem k ct d n).1 c'.mem := by
  have hk' : k ∉ (recency_list c).map (key_at c.mem) := hk
  obtain ⟨c', hrun, hR, hmax, hpay⟩ := put_fresh_notfull hwf hne k ct d n hk'
  have hkeys : (recency_list c).map (key_at c'.mem) = (recency_list c).map (key_at c.mem) :=
    List.map_congr_left (fun b hb => by
      obtain ⟨e, he⟩ := seg_valid _ _ _ hwf.linked.links b hb
      exact (same_payload_key hpay b).trans (alloc_key he _))
  have hknew : key_at c'.mem c.mem.length = k := by
    rw [same_payload_key hpay]
    simp [key_at, alloc_entry]
  refine ⟨c', hrun, hR.well_formed, hR.linked.recency_list_eq, ?_, hmax, ?_, hpay⟩
  · rw [hR.keys_eq, List.map_cons, hknew, hkeys]; rfl
  · rw [hR.size_eq, hwf.size_eq]; simp

/-- A put of a fresh key into a full well-formed cache with at least two
entries: the last entry of the list leaves, the others stay in order. -/
theorem put_keys_full {c : cache} (hwf : well_formed c) (hfull : c.cur_size = c.max_size)
    (h2 : 2 ≤ c.cur_size) (k ct : String) (d : List Nat) (n : Int) (hk : k ∉ recency_keys c) :
    ∃ c', cache_put c k ct d n = some c' ∧ well_formed c' ∧
      recency_list c' = c.mem.length :: (recency_list c).dropLast ∧
      recency_keys c' = k :: (recency_keys c).dropLast ∧
      c'.max_size = c.max_size ∧ c'.cur_size = c.cur_size ∧
      same_payload (alloc_entry c.mem k ct d n).1 c'.mem := by
  have hlen : 2 ≤ (recency_list c).length := by
    have := hwf.size_eq
    omega
  obtain ⟨L0, x, t, hL⟩ := exists_snoc2 hlen
  have hR0 : Represents c (L0 ++ [x, t]) := hL ▸ hwf
  have hk' : k ∉ (L0 ++ [x, t]).map (key_at c.mem) := by
    rw [← hL]; exact hk
  obtain ⟨c', hrun, hR, hmax, hpay⟩ := put_fresh_full hR0 hfull k ct d n hk'
  have hkeys : (L0 ++ [x]).map (key_at c'.mem) = (L0 ++ [x]).map (key_at c.mem) :=
    List.map_congr_left (fun b hb => by
      have hb' : b ∈ L0 ++ [x, t] := by
        rcases List.mem_append.1 hb with h1 | h1
        · exact List.mem_append_left _ h1
        · exact List.mem_append_right _ (by simp at h1; simp [h1])
      obtain ⟨e, he⟩ := seg_valid _ _ _ hR0.linked.links b hb'
      exact (same_payload_key hpay b).trans (alloc_key he _))
  have hknew : key_at c'.mem c.mem.length = k := by
    rw [same_payload_key hpay]
    simp [key_at, alloc_entry]
  refine ⟨c', hrun, hR.well_formed, ?_, ?_, hmax, ?_, hpay⟩
  · rw [hR.linked.recency_list_eq, hL, dropLast_snoc2]
  · rw [hR.keys_eq, List.map_cons, hknew, hkeys]
    unfold recency_keys
    rw [hL, List.map_append, List.map_append]
    simp only [List.map_cons, List.map_nil]
    rw [dropLast_snoc2]
  · rw [hR.size_eq, hwf.size_eq, hL]; simp; omega

/-- A hit: the entry found moves to the front, the others keep their order. -/
theorem get_keys_hit {c : cache} (hwf : well_formed c) {k : String} (hk : k ∈ recency_keys c) :
    ∃ c' a, cache_get c k = some (c', some a) ∧ hashtable_get c.index k = some a ∧
      a ∈ recency_list c ∧ key_at c.mem a = k ∧ well_formed c' ∧
      recency_list c' = a :: (recency_list c).erase a ∧
      recency_keys c' = k :: (recency_keys c).erase k ∧ Frame c c' := by
  obtain ⟨a, ha, hka⟩ := List.mem_map.1 hk
  have hget : hashtable_get c.index k = some a := (hwf.get_some_iff k a).2 ⟨ha, hka⟩
  obtain ⟨c', hrun, hR, hF⟩ := get_hit hwf hget
  have hkeyf : key_at c'.mem = key_at c.mem := funext (same_payload_key hF.payload)
  refine ⟨c', a, hrun, hget, ha, hka, hR.well_formed, hR.linked.recency_list_eq, ?_, hF⟩
  rw [hR.keys_eq, hkeyf, List.map_cons, hka, map_erase_nodup _ hwf.keys_nodup ha, hka]
  rfl

/-- A miss: nothing changes. -/
theorem get_keys_miss {c : cache} (hwf : well_formed c) {k : String} (hk : k ∉ recency_keys c) :
    cache_get c k = some (c, none) :=
  get_miss ((hwf.get_none_iff k).2 hk)

theorem create_well_formed (max_size hashsize : Int) :
    well_formed (cache_create max_size hashsize) :=
  (create_represents max_size hashsize).well_formed

theorem create_keys (max_size hashsize : Int) :
    recency_keys (cache_create max_size hashsize) = [] :=
  (create_represents max_size hashsize).keys_eq

/-! ## Sequences of puts -/

theorem run_cons (c : cache) (x : call) (xs : List call) :
    run c (x :: xs) = (step c x).bind (fun c' => run c' xs) := rfl

theorem run_append (c : cache) (xs ys : List call) :
    run c (xs ++ ys) = (run c xs).bind (fun c' => run c' ys) := by
  induction xs generalizing c with
  | nil => rfl
  | cons x xs ih =>
    rw [List.cons_append, run_cons, run_cons]
    cases h : step c x with
    | none => rfl
    | some c1 => simp only [Option.some_bind, Option.bind_eq_bind]; exact ih c1

/-- Puts of fresh, pairwise distinct keys that fit into the free room: each
key is pushed onto the front of the list and nothing is evicted; the entries
already there keep their payloads, and every put leaves an entry in the list
that holds its key, its content type, the `strdup` copy of its content and its
length. -/
theorem run_puts_notfull (ps : List (String × String × List Nat × Int)) :
    ∀ (c : cache), well_formed c → (ps.map (fun p => p.1)).Nodup →
      (∀ p ∈ ps, p.1 ∉ recency_keys c) → c.cur_size + ps.length ≤ c.max_size →
      ∃ c', run c (ps.map put_call) = some c' ∧ well_formed c' ∧
        recency_keys c' = (ps.map (fun p => p.1)).reverse ++ recency_keys c ∧
        c'.cur_size = c.cur_size + ps.length ∧ c'.max_size = c.max_size ∧
        (∀ (a : Nat) (e : cache_entry), c.mem[a]? = some e →
          payload_at c'.mem a = payload_at c.mem a) ∧
        (∀ a ∈ recency_list c, a ∈ recency_list c') ∧
        (∀ p ∈ ps, ∃ a ∈ recency_list c',
          payload_at c'.mem a = some (p.1, p.2.1, strdup p.2.2.1, p.2.2.2)) := by
  induction ps with
  | nil =>
    intro c hwf _ _ _
    exact ⟨c, rfl, hwf, by simp, by simp, rfl, fun _ _ _ => rfl, fun _ h => h,
      fun p hp => by cases hp⟩
  | cons p ps ih =>
    intro c hwf hnd hfresh hroom
    rw [List.map_cons, List.nodup_cons] at hnd
    have hsz : (0 : Int) ≤ c.cur_size := by rw [hwf.size_eq]; exact Int.natCast_nonneg _
    have hne : c.cur_size ≠ c.max_size := by
      simp only [List.length_cons, Nat.cast_add, Nat.cast_one] at hroom
      omega
    obtain ⟨c1, h1, hwf1, hl1, hk1, hm1, hs1, hpay1⟩ :=
      put_keys_notfull hwf hne p.1 p.2.1 p.2.2.1 p.2.2.2 (hfresh p (List.mem_cons_self _ _))
    have hfresh1 : ∀ q ∈ ps, q.1 ∉ recency_keys c1 := by
      intro q hq hm
      rw [hk1] at hm
      rcases List.mem_cons.1 hm with e | hm
      · exact hnd.1 (List.mem_map.2 ⟨q, hq, e⟩)
      · exact hfresh q (List.mem_cons_of_mem _ hq) hm
    have hroom1 : c1.cur_size + ps.length ≤ c1.max_size := by
      simp only [List.length_cons, Nat.cast_add, Nat.cast_one] at hroom
      rw [hs1, hm1]; omega
    obtain ⟨c', h2, hwf', hk', hs', hm', hold', hmem', hnew'⟩ :=
      ih c1 hwf1 hnd.2 hfresh1 hroom1
    -- a cell of `c` is still a cell of `c1`
    have hcell : ∀ (a : Nat) (e : cache_entry), c.mem[a]? = some e →
        ∃ e1, c1.mem[a]? = some e1 := by
      intro a e he
      have : (alloc_entry c.mem p.1 p.2.1 p.2.2.1 p.2.2.2).1[a]? = some e := by
        simp only [alloc_entry]
        rw [List.getElem?_append_left (get_lt he)]; exact he
      obtain ⟨e1, he1, _⟩ := same_payload_get hpay1 this
      exact ⟨e1, he1⟩
    have hnewcell : ∃ e1, c1.mem[c.mem.length]? = some e1 := by
      have : (alloc_entry c.mem p.1 p.2.1 p.2.2.1 p.2.2.2).1[c.mem.length]? =
          some ⟨p.1, p.2.1, p.2.2.2, strdup p.2.2.1, none, none⟩ := by
        simp [alloc_entry]
      obtain ⟨e1, he1, _⟩ := same_payload_get hpay1 this
      exact ⟨e1, he1⟩
    refine ⟨c', ?_, hwf', ?_, ?_, hm'.trans hm1, ?_, ?_, ?_⟩
    · rw [List.map_cons, run_cons]
      show (cache_put c p.1 p.2.1 p.2.2.1 p.2.2.2).bind _ = _
      rw [h1]; exact h2
    · rw [hk', hk1]; simp
    · rw [hs', hs1]; simp only [List.length_cons, Nat.cast_add, Nat.cast_one]; omega
    · intro a e he
      obtain ⟨e1, he1⟩ := hcell a e he
      rw [hold' a e1 he1]
      exact alloc_payload_old hpay1 he
    · intro a ha
      exact hmem' a (by rw [hl1]; exact List.mem_cons_of_mem _ ha)
    · intro q hq
      rcases List.mem_cons.1 hq with e | hq
      · obtain ⟨e1, he1⟩ := hnewcell
        refine ⟨c.mem.length, hmem' _ (by rw [hl1]; exact List.mem_cons_self _ _), ?_⟩
        rw [hold' _ e1 he1, e]
        exact alloc_payload_new hpay1
      · exact hnew' q hq

theorem recency_keys_length {c : cache} (hwf : well_formed c) :
    ((recency_keys c).length : Int) = c.cur_size := by
  unfold recency_keys
  rw [List.length_map, hwf.size_eq]

theorem take_dropLast {α : Type} (l : List α) (m : Nat) (h : m + 1 ≤ l.length) :
    l.dropLast.take m = l.take m := by
  rw [List.dropLast_eq_take, List.take_take, Nat.min_eq_left (by omega)]

theorem mem_dropLast {α : Type} {l : List α} {a : α} (h : a ∈ l.dropLast) : a ∈ l :=
  (List.dropLast_sublist l).subset h

/-- Puts of fresh, pairwise distinct keys into a full cache with at least two
entries, no more puts than entries: each put pushes its key onto the front and
drops the last key of the list. -/
theorem run_puts_full (ps : List (String × String × List Nat × Int)) :
    ∀ (c : cache), well_formed c → c.cur_size = c.max_size → 2 ≤ c.cur_size →
      (ps.map (fun p => p.1)).Nodup → (∀ p ∈ ps, p.1 ∉ recency_keys c) →
      ps.length ≤ (recency_keys c).length →
      ∃ c', run c (ps.map put_call) = some c' ∧ well_formed c' ∧
        recency_keys c' = (ps.map (fun p => p.1)).reverse ++
          (recency_keys c).take ((recency_keys c).length - ps.length) ∧
        c'.cur_size = c.cur_size ∧ c'.max_size = c.max_size := by
  induction ps with
  | nil =>
    intro c hwf _ _ _ _ _
    exact ⟨c, rfl, hwf, by simp, rfl, rfl⟩
  | cons p ps ih =>
    intro c hwf hfull h2 hnd hfresh hlen
    rw [List.map_cons, List.nodup_cons] at hnd
    obtain ⟨c1, h1, hwf1, _, hk1, hm1, hs1, _⟩ :=
      put_keys_full hwf hfull h2 p.1 p.2.1 p.2.2.1 p.2.2.2 (hfresh p (List.mem_cons_self _ _))
    have hfresh1 : ∀ q ∈ ps, q.1 ∉ recency_keys c1 := by
      intro q hq hm
      rw [hk1] at hm
      rcases List.mem_cons.1 hm with e | hm
      · exact hnd.1 (List.mem_map.2 ⟨q, hq, e⟩)
      · exact hfresh q (List.mem_cons_of_mem _ hq) (mem_dropLast hm)
    have hlen0 := recency_keys_length hwf
    have hlen1 : (recency_keys c1).length = (recency_keys c).length := by
      have := recency_keys_length hwf1
      rw [hs1] at this
      omega
    simp only [List.length_cons] at hlen
    obtain ⟨c', hr, hwf', hk', hs', hm'⟩ :=
      ih c1 hwf1 (by rw [hs1, hm1, hfull]) (by rw [hs1]; exact h2) hnd.2 hfresh1
        (by rw [hlen1]; omega)
    refine ⟨c', ?_, hwf', ?_, hs'.trans hs1, hm'.trans hm1⟩
    · rw [List.map_cons, run_cons]
      show (cache_put c p.1 p.2.1 p.2.2.1 p.2.2.2).bind _ = _
      rw [h1]; exact hr
    · rw [hk', hlen1, hk1]
      have e : (recency_keys c).length - ps.length =
          ((recency_keys c).length - (ps.length + 1)) + 1 := by omega
      rw [e, List.take_succ_cons, take_dropLast _ _ (by omega)]
      simp [List.length_cons]

theorem keys_nodup_of {c : cache} (hwf : well_formed c) : (recency_keys c).Nodup :=
  hwf.keys_nodup

theorem not_mem_dropLast_of_last {l : List String} {v : String} (hnd : l.Nodup)
    (hv : l.getLast? = some v) : v ∉ l.dropLast := by
  obtain ⟨ys, rfl⟩ := List.getLast?_eq_some_iff.1 hv
  rw [List.dropLast_concat]
  intro h
  exact (List.nodup_append.1 hnd).2.2 h (List.mem_singleton_self v)

/-! ## Arbitrary keys -/

theorem Represents.sound {c : cache} {L : List Nat} (h : Represents c L) : Sound c L :=
  ⟨h.linked, h.size_eq, h.index_sound⟩

theorem put_sound_notfull {c : cache} {L : List Nat} (h : Sound c L)
    (hne : c.cur_size ≠ c.max_size) (k ct : String) (d : List Nat) (n : Int) :
    ∃ c', cache_put c k ct d n = some c' ∧ Sound c' (c.mem.length :: L) ∧
      c'.max_size = c.max_size := by
  obtain ⟨c', hrun, hL', hidx, hmax, hcur, hpay⟩ := put_notfull h.linked hne k ct d n
  refine ⟨c', hrun, ⟨hL', by rw [hcur, h.size_eq]; simp, ?_⟩, hmax⟩
  intro kv hkv
  rw [hidx] at hkv
  rcases List.mem_cons.1 hkv with e | hkv
  · rw [e]
    refine ⟨List.mem_cons_self _ _, ?_⟩
    rw [same_payload_key hpay]
    simp [key_at, alloc_entry]
  · obtain ⟨hm, hkey⟩ := h.index kv (List.mem_of_mem_filter hkv)
    obtain ⟨e, he⟩ := seg_valid _ _ _ h.linked.links kv.2 hm
    exact ⟨List.mem_cons_of_mem _ hm, ((same_payload_key hpay _).trans (alloc_key he _)).trans hkey⟩

theorem put_sound_full {c : cache} {L0 : List Nat} {x t : Nat} (h : Sound c (L0 ++ [x, t]))
    (hfull : c.cur_size = c.max_size) (k ct : String) (d : List Nat) (n : Int) :
    ∃ c', cache_put c k ct d n = some c' ∧ Sound c' (c.mem.length :: (L0 ++ [x])) ∧
      c'.max_size = c.max_size := by
  obtain ⟨c', hrun, hL', hidx, hmax, hcur, hpay⟩ := put_full h.linked hfull k ct d n
  refine ⟨c', hrun, ⟨hL', by rw [hcur, h.size_eq]; simp; omega, ?_⟩, hmax⟩
  intro kv hkv
  rw [hidx] at hkv
  rcases List.mem_cons.1 hkv with e | hkv
  · rw [e]
    refine ⟨List.mem_cons_self _ _, ?_⟩
    rw [same_payload_key hpay]
    simp [key_at, alloc_entry]
  · have hkv1 := List.mem_of_mem_filter hkv
    have hne : kv.1 ≠ key_at c.mem t := by
      have := (List.mem_filter.1 hkv1).2
      simpa using this
    obtain ⟨hm, hkey⟩ := h.index kv (List.mem_filter.1 hkv1).1
    obtain ⟨e, he⟩ := seg_valid _ _ _ h.linked.links kv.2 hm
    have hnt : kv.2 ≠ t := fun e => hne (by rw [← hkey, e])
    have hm' : kv.2 ∈ L0 ++ [x] := by
      rcases List.mem_append.1 hm with h1 | h1
      · exact List.mem_append_left _ h1
      · rcases List.mem_cons.1 h1 with h2 | h2
        · exact List.mem_append_right _ (by simp [h2])
        · exact absurd (List.mem_singleton.1 h2) hnt
    exact ⟨List.mem_cons_of_mem _ hm',
      ((same_payload_key hpay _).trans (alloc_key he _)).trans hkey⟩

theorem get_sound {c : cache} {L : List Nat} (h : Sound c L) (k : String) :
    ∃ c' r L', cache_get c k = some (c', r) ∧ Sound c' L' ∧ c'.max_size = c.max_size ∧
      c'.cur_size = c.cur_size := by
  cases hget : hashtable_get c.index k with
  | none => exact ⟨c, none, L, get_miss hget, h, rfl, rfl⟩
  | some a =>
    have hkv : (k, a) ∈ c.index := by
      unfold hashtable_get at hget
      obtain ⟨kv, hf, e⟩ := Option.map_eq_some'.1 hget
      have hm := List.mem_of_find?_eq_some hf
      have hk := List.find?_some hf
      simp only [decide_eq_true_eq] at hk
      have : kv = (k, a) := Prod.ext hk e
      rw [← this]; exact hm
    obtain ⟨ha, _⟩ := h.index _ hkv
    obtain ⟨c', hrun, hL', hF⟩ := move_to_head_spec h.linked ha
    have hperm : List.Perm L (a :: L.erase a) := List.perm_cons_erase ha
    refine ⟨c', some a, a :: L.erase a, by simp [cache_get, hget, hrun],
      ⟨hL', by rw [hF.cur_eq, h.size_eq, hperm.length_eq], ?_⟩, hF.max_eq, hF.cur_eq⟩
    intro kv hkv'
    rw [hF.index_eq] at hkv'
    obtain ⟨hm, hkey⟩ := h.index kv hkv'
    exact ⟨hperm.mem_iff.1 hm, (same_payload_key hF.payload _).trans hkey⟩

/-- One call on a sound state within its capacity: if it returns, the state
is sound and within the same capacity again; with capacity at least 2 it
returns. -/
theorem step_sound {c : cache} {L : List Nat} (h : Sound c L) (hle : c.cur_size ≤ c.max_size)
    (x : call) :
    (∀ c', step c x = some c' →
      ∃ L', Sound c' L' ∧ c'.cur_size ≤ c'.max_size ∧ c'.max_size = c.max_size) ∧
    (2 ≤ c.max_size → ∃ c', step c x = some c') := by
  cases x with
  | get k =>
    obtain ⟨c1, r, L1, hg, hS, hm, hs⟩ := get_sound h k
    have hstep : step c (.get k) = some c1 := by simp [step, hg]
    refine ⟨fun c' hc' => ?_, fun _ => ⟨c1, hstep⟩⟩
    rw [hstep] at hc'
    cases hc'
    exact ⟨L1, hS, by rw [hs, hm]; exact hle, hm⟩
  | put k ct d n =>
    show (∀ c', cache_put c k ct d n = some c' → _) ∧ (_ → ∃ c', cache_put c k ct d n = some c')
    by_cases hfull : c.cur_size = c.max_size
    · rcases Nat.lt_or_ge L.length 2 with hlt | hge
      · have hnone := put_fail h.linked hfull (by omega) k ct d n
        refine ⟨fun c' hc' => ?_, fun h2 => ?_⟩
        · rw [hnone] at hc'; cases hc'
        · have := h.size_eq
          omega
      · obtain ⟨L0, x, t, rfl⟩ := exists_snoc2 hge
        obtain ⟨c1, hp, hS, hm⟩ := put_sound_full h hfull k ct d n
        refine ⟨fun c' hc' => ?_, fun _ => ⟨c1, hp⟩⟩
        rw [hp] at hc'
        cases hc'
        refine ⟨_, hS, ?_, hm⟩
        rw [hS.size_eq, hm, ← hfull, h.size_eq]
        simp
        omega
    · obtain ⟨c1, hp, hS, hm⟩ := put_sound_notfull h hfull k ct d n
      refine ⟨fun c' hc' => ?_, fun _ => ⟨c1, hp⟩⟩
      rw [hp] at hc'
      cases hc'
      refine ⟨_, hS, ?_, hm⟩
      rw [hS.size_eq, hm]
      have := h.size_eq
      simp only [List.length_cons, Nat.cast_add, Nat.cast_one]
      omega

theorem run_sound (calls : List call) :
    ∀ (c : cache) (L : List Nat), Sound c L → c.cur_size ≤ c.max_size →
      (∀ c', run c calls = some c' →
        ∃ L', Sound c' L' ∧ c'.cur_size ≤ c'.max_size ∧ c'.max_size = c.max_size) ∧
      (2 ≤ c.max_size → ∃ c', run c calls = some c') := by
  induction calls with
  | nil =>
    intro c L h hle
    exact ⟨fun c' hc' => by cases hc'; exact ⟨L, h, hle, rfl⟩, fun _ => ⟨c, rfl⟩⟩
  | cons x xs ih =>
    intro c L h hle
    obtain ⟨hs1, hs2⟩ := step_sound h hle x
    rw [run_cons]
    constructor
    · intro c' hc'
      cases hx : step c x with
      | none => rw [hx] at hc'; cases hc'
      | some c1 =>
        rw [hx] at hc'
        obtain ⟨L1, hS1, hle1, hm1⟩ := hs1 c1 hx
        obtain ⟨L', hS', hle', hm'⟩ := (ih c1 L1 hS1 hle1).1 c' hc'
        exact ⟨L', hS', hle', hm'.trans hm1⟩
    · intro h2
      obtain ⟨c1, hx⟩ := hs2 h2
      obtain ⟨L1, hS1, hle1, hm1⟩ := hs1 c1 hx
      obtain ⟨c', hc'⟩ := (ih c1 L1 hS1 hle1).2 (by rw [hm1]; exact h2)
      exact ⟨c', by rw [hx]; exact hc'⟩

/-- What the structural invariant says in terms of what can be read off a
state: no cell twice in the list, both directions agree, the index maps the key
of every entry of the list to that entry and maps nothing else, no key twice in
the index, list length and index count equal `cur_size`, and `head`, `tail` are
`NULL` exactly when `cur_size = 0`. -/
theorem well_formed_content {c : cache} (hwf : well_formed c) :
    (recency_list c).Nodup ∧ recency_list_back c = (recency_list c).reverse ∧
    (∀ a ∈ recency_list c, hashtable_get c.index (key_at c.mem a) = some a) ∧
    (∀ k a, hashtable_get c.index k = some a → a ∈ recency_list c ∧ key_at c.mem a = k) ∧
    (c.index.map Prod.fst).Nodup ∧
    ((recency_list c).length : Int) = c.cur_size ∧ (c.index.length : Int) = c.cur_size ∧
    (c.head = none ↔ c.cur_size = 0) ∧ (c.tail = none ↔ c.cur_size = 0) := by
  have hsz := hwf.size_eq
  have hzero : c.cur_size = 0 ↔ recency_list c = [] := by
    rw [hsz]
    constructor
    · intro h
      exact List.length_eq_zero.1 (by exact_mod_cast h)
    · intro h
      rw [h]; rfl
  refine ⟨hwf.linked.nodup, hwf.linked.recency_list_back_eq,
    fun a ha => (hwf.get_some_iff _ a).2 ⟨ha, rfl⟩,
    fun k a h => (hwf.get_some_iff k a).1 h, hwf.index_nodup, hsz.symm, ?_, ?_, ?_⟩
  · rw [hwf.index_perm.length_eq, List.length_map]; exact hsz.symm
  · rw [hwf.linked.head_eq, hzero]
    cases recency_list c <;> simp
  · rw [hwf.linked.tail_eq, hzero, List.getLast?_eq_none_iff]

/-- A put of a fresh key into a full well-formed cache of capacity at least 2
evicts exactly the least recently used key `v`: afterwards `cache_get v`
misses, every other key that was present still hits, the new key hits, and
`cur_size` is still `max_size`. -/
theorem put_evicts_tail (c : cache) (k ct : String) (d : List Nat) (n : Int)
    (hwf : well_formed c) (hfull : c.cur_size = c.max_size) (h2 : 2 ≤ c.max_size)
    (hk : k ∉ recency_keys c) :
    ∃ c' v, cache_put c k ct d n = some c' ∧ (recency_keys c).getLast? = some v ∧
      recency_keys c' = k :: (recency_keys c).dropLast ∧
      cache_get c' v = some (c', none) ∧
      (∀ k' ∈ recency_keys c, k' ≠ v →
        ∃ c'' a, cache_get c' k' = some (c'', some a) ∧ key_at c'.mem a = k') ∧
      (∃ c'' a, cache_get c' k = some (c'', some a) ∧ key_at c'.mem a = k) ∧
      c'.cur_size = c'.max_size := by
  obtain ⟨c', hrun, hwf', _, hk', hm', hs', _⟩ :=
    put_keys_full hwf hfull (by rw [hfull]; exact h2) k ct d n hk
  have hne : recency_keys c ≠ [] := by
    intro e
    have := recency_keys_length hwf
    rw [e] at this
    simp at this
    omega
  obtain ⟨v, hv⟩ : ∃ v, (recency_keys c).getLast? = some v := by
    cases h : (recency_keys c).getLast? with
    | none => exact absurd (List.getLast?_eq_none_iff.1 h) hne
    | some v => exact ⟨v, rfl⟩
  have hsplit : recency_keys c = (recency_keys c).dropLast ++ [v] :=
    (List.dropLast_append_getLast? v hv).symm
  refine ⟨c', v, hrun, hv, hk', get_keys_miss hwf' ?_, ?_, ?_, by rw [hs', hm', hfull]⟩
  · rw [hk']
    intro hm
    rcases List.mem_cons.1 hm with e | hm
    · exact hk (e ▸ List.mem_of_getLast?_eq_some hv)
    · exact not_mem_dropLast_of_last (keys_nodup_of hwf) hv hm
  · intro k' hk'mem hne'
    have : k' ∈ recency_keys c' := by
      rw [hk']
      rw [hsplit] at hk'mem
      rcases List.mem_append.1 hk'mem with h | h
      · exact List.mem_cons_of_mem _ h
      · exact absurd (List.mem_singleton.1 h) hne'
    obtain ⟨c'', a, hg, _, _, hka, _⟩ := get_keys_hit hwf' this
    exact ⟨c'', a, hg, hka⟩
  · have : k ∈ recency_keys c' := by rw [hk']; exact List.mem_cons_self _ _
    obtain ⟨c'', a, hg, _, _, hka, _⟩ := get_keys_hit hwf' this
    exact ⟨c'', a, hg, hka⟩

theorem key_of_payload_at {m : List cache_entry} {a : Nat} {k ct : String} {d : List Nat}
    {n : Int} (h : payload_at m a = some (k, ct, d, n)) : key_at m a = k := by
  unfold payload_at at h
  cases he : m[a]? with
  | none => rw [he] at h; cases h
  | some e =>
    rw [he] at h
    simp only [Option.map_some', Option.some.injEq] at h
    rw [key_at_eq he]
    exact congrArg Prod.fst h

theorem strdup_eq_self {d : List Nat} (h : 0 ∉ d) : strdup d = d := by
  unfold strdup
  rw [List.takeWhile_eq_self_iff]
  intro b hb
  have : b ≠ 0 := fun e => h (e ▸ hb)
  simpa using this

/-- What the round trip returns: after at most `N` puts with pairwise distinct
keys into a fresh cache of capacity `N`, `cache_get` of each key returns an
entry with the key, the content type and the length of its put, and with the
`strdup` copy of the content: the bytes before the first zero byte. -/
theorem round_trip_strdup (N hashsize : Int) (ps : List (String × String × List Nat × Int))
    (hlen : (ps.length : Int) ≤ N) (hnd : (ps.map (fun p => p.1)).Nodup) :
    ∃ c, run (cache_create N hashsize) (ps.map put_call) = some c ∧
      ∀ p ∈ ps, ∃ c' a, cache_get c p.1 = some (c', some a) ∧
        payload_at c'.mem a = some (p.1, p.2.1, strdup p.2.2.1, p.2.2.2) := by
  obtain ⟨c, hrun, hwf, _, _, _, _, _, hnew⟩ :=
    run_puts_notfull ps (cache_create N hashsize) (create_well_formed N hashsize) hnd
      (by intro p _; rw [create_keys]; simp)
      (by show (0 : Int) + ps.length ≤ N; omega)
  refine ⟨c, hrun, fun p hp => ?_⟩
  obtain ⟨a, ha, hpa⟩ := hnew p hp
  have hget : hashtable_get c.index p.1 = some a :=
    (hwf.get_some_iff _ a).2 ⟨ha, key_of_payload_at hpa⟩
  obtain ⟨c', hg, _, hF⟩ := get_hit hwf hget
  exact ⟨c', a, hg, (hF.payload a).trans hpa⟩

theorem same_payload_length {m m' : List cache_entry} (h : same_payload m m') :
    m'.length = m.length := by
  rcases Nat.lt_trichotomy m'.length m.length with h1 | h1 | h1
  · have := h m'.length
    unfold payload_at at this
    rw [List.getElem?_eq_none (le_refl _), List.getElem?_eq_getElem h1] at this
    cases this
  · exact h1
  · have := h m.length
    unfold payload_at at this
    rw [List.getElem?_eq_none (le_refl _), List.getElem?_eq_getElem h1] at this
    cases this

theorem put_mem_length {c c' : cache} {k ct : String} {d : List Nat} {n : Int}
    (hpay : same_payload (alloc_entry c.mem k ct d n).1 c'.mem) :
    c'.mem.length = c.mem.length + 1 := by
  rw [same_payload_length hpay]
  simp [alloc_entry]

theorem filter_eq_of_filter_ne (ht : hashtable) (k : String) :
    (ht.filter (fun kv => kv.1 ≠ k)).filter (fun kv => kv.1 = k) = [] := by
  rw [List.filter_filter, List.filter_eq_nil_iff]
  intro kv _
  by_cases h : kv.1 = k <;> simp [h]

theorem put_single_mapping (ht : hashtable) (k : String) (v : Nat) :
    (hashtable_put ht k v).filter (fun kv => kv.1 = k) = [(k, v)] := by
  unfold hashtable_put
  rw [List.filter_cons_of_pos (by simp), filter_eq_of_filter_ne]

theorem get_head_unchanged {c : cache} {k : String} {a : Nat}
    (hget : hashtable_get c.index k = some a) (hhead : c.head = some a) :
    cache_get c k = some (c, some a) := by
  simp [cache_get, hget, dllist_move_to_head, hhead]

/-! ## Teardown -/

theorem free_entries_seg {m : List cache_entry} :
    ∀ (L : List Nat) (p : Option Nat) (fuel : Nat), seg m p L none → L.length ≤ fuel →
      free_entries m fuel (first_or L none) = some L
  | [], _, fuel, _, _ => by cases fuel <;> rfl
  | a :: l, p, 0, _, hlen => by simp at hlen
  | a :: l, p, fuel + 1, h, hlen => by
    obtain ⟨e, he, _, hn⟩ := node_iff.1 h.1
    have ih := free_entries_seg l (some a) fuel h.2 (by simpa using hlen)
    show free_entries m (fuel + 1) (some a) = some (a :: l)
    simp only [free_entries, he, hn]
    rw [ih]
    rfl

theorem cache_free_linked {c : cache} {L : List Nat} (h : Linked c L) :
    cache_free c =
      some (release.index :: (L.map release.entry ++ [release.cache_struct])) := by
  unfold cache_free
  rw [h.head_eq, ← first_or_none, free_entries_seg L none _ h.links h.length_le]
  rfl

theorem count_entry (L : List Nat) (a : Nat) :
    (release.index :: (L.map release.entry ++ [release.cache_struct])).count (release.entry a) =
      L.count a := by
  rw [List.count_cons_of_ne (by simp), List.count_append,
    List.count_map_of_injective L release.entry (fun x y h => by cases h; rfl)]
  simp

theorem mem_of_get {ht : hashtable} {k : String} {a : Nat} (hget : hashtable_get ht k = some a) :
    (k, a) ∈ ht := by
  unfold hashtable_get at hget
  obtain ⟨kv, hf, e⟩ := Option.map_eq_some'.1 hget
  have hm := List.mem_of_find?_eq_some hf
  have hk := List.find?_some hf
  simp only [decide_eq_true_eq] at hk
  have : kv = (k, a) := Prod.ext hk e
  rw [← this]; exact hm

/-- A put into a full cache with at least two entries, of a key other than the
key of the tail `t`: afterwards the index has no mapping for the key of `t`,
whatever other entries of the list carry that key. -/
theorem put_full_unmaps_tail_key {c : cache} {L0 : List Nat} {x t : Nat}
    (hL : Linked c (L0 ++ [x, t])) (hfull : c.cur_size = c.max_size) (k ct : String)
    (d : List Nat) (n : Int) (hk : k ≠ key_at c.mem t) :
    ∃ c', cache_put c k ct d n = some c' ∧ Linked c' (c.mem.length :: (L0 ++ [x])) ∧
      cache_get c' (key_at c.mem t) = some (c', none) ∧ c'.cur_size = c.cur_size ∧
      c'.max_size = c.max_size ∧
      ∀ b ∈ L0 ++ [x, t], key_at c'.mem b = key_at c.mem b := by
  obtain ⟨c', hrun, hL', hidx, hmax, hcur, hpay⟩ := put_full hL hfull k ct d n
  refine ⟨c', hrun, hL', get_miss ?_, hcur, hmax, fun b hb => ?_⟩
  · rw [hidx, get_put, if_neg (fun e => hk e.symm), get_delete, if_pos rfl]
  · obtain ⟨e, he⟩ := seg_valid _ _ _ hL.links b hb
    exact (same_payload_key hpay b).trans (alloc_key he _)

/-- The input named in C17: capacity 2 and `put A`, `put A`, `put B` on a fresh
cache leave the keys `[B, A]` in the list with `cur_size = 2`, and `cache_get A`
is absent. -/
theorem duplicate_eviction_example :
    ∃ c, run (cache_create 2 0) [.put "A" "text/plain" [104, 105] 2,
        .put "A" "text/plain" [104, 105] 2, .put "B" "text/plain" [104, 105] 2] = some c ∧
      recency_keys c = ["B", "A"] ∧ c.cur_size = 2 ∧ cache_get c "A" = some (c, none) :=
  ⟨_, rfl, rfl, rfl, rfl⟩

/-! ## `strstr` and `find_start_of_body` -/

theorem occurs_at_zero (n t : List Char) : occurs_at n t 0 ↔ n <+: t := Iff.rfl

theorem occurs_at_succ (n : List Char) (c : Char) (t : List Char) (j : Nat) :
    occurs_at n (c :: t) (j + 1) ↔ occurs_at n t j := Iff.rfl

theorem strstr_eq_none_iff (n : List Char) :
    ∀ t : List Char, strstr n t = none ↔ ∀ i, ¬ occurs_at n t i
  | [] => by
    unfold strstr
    by_cases h : n.isPrefixOf [] = true
    · rw [if_pos h]
      simp only [reduceCtorEq, false_iff, not_forall, not_not]
      exact ⟨0, List.isPrefixOf_iff_prefix.1 h⟩
    · rw [if_neg h]
      simp only [true_iff]
      intro i hi
      apply h
      apply List.isPrefixOf_iff_prefix.2
      unfold occurs_at at hi
      rwa [List.drop_nil] at hi
  | c :: t => by
    have ih := strstr_eq_none_iff n t
    unfold strstr
    by_cases h : n.isPrefixOf (c :: t) = true
    · rw [if_pos h]
      simp only [reduceCtorEq, false_iff, not_forall, not_not]
      exact ⟨0, List.isPrefixOf_iff_prefix.1 h⟩
    · rw [if_neg h, Option.map_eq_none', ih]
      constructor
      · intro hall i
        cases i with
        | zero => exact fun hi => h (List.isPrefixOf_iff_prefix.2 hi)
        | succ j => exact hall j
      · intro hall j
        exact hall (j + 1)

theorem strstr_eq_some_iff (n : List Char) :
    ∀ (t : List Char) (i : Nat), strstr n t = some i ↔ first_at n t i
  | [], i => by
    unfold strstr
    by_cases h : n.isPrefixOf [] = true
    · rw [if_pos h]
      have h0 : occurs_at n [] 0 := List.isPrefixOf_iff_prefix.1 h
      constructor
      · intro e
        cases e
        exact ⟨h0, fun j hj => absurd hj (Nat.not_lt_zero j)⟩
      · intro hf
        cases i with
        | zero => rfl
        | succ j => exact absurd h0 (hf.2 0 (Nat.succ_pos j))
    · rw [if_neg h]
      simp only [reduceCtorEq, false_iff]
      intro hf
      apply h
      apply List.isPrefixOf_iff_prefix.2
      have := hf.1
      unfold occurs_at at this
      rwa [List.drop_nil] at this
  | c :: t, i => by
    unfold strstr
    by_cases h : n.isPrefixOf (c :: t) = true
    · rw [if_pos h]
      have h0 : occurs_at n (c :: t) 0 := List.isPrefixOf_iff_prefix.1 h
      constructor
      · intro e
        cases e
        exact ⟨h0, fun j hj => absurd hj (Nat.not_lt_zero j)⟩
      · intro hf
        cases i with
        | zero => rfl
        | succ j => exact absurd h0 (hf.2 0 (Nat.succ_pos j))
    · rw [if_neg h]
      have h0 : ¬ occurs_at n (c :: t) 0 := fun hi => h (List.isPrefixOf_iff_prefix.2 hi)
      cases i with
      | zero =>
        constructor
        · intro e
          obtain ⟨j, _, e'⟩ := Option.map_eq_some'.1 e
          cases e'
        · intro hf
          exact absurd hf.1 h0
      | succ i' =>
        have ih := strstr_eq_some_iff n t i'
        constructor
        · intro e
          obtain ⟨j, hj, e'⟩ := Option.map_eq_some'.1 e
          have : j = i' := Nat.succ.inj e'
          subst this
          obtain ⟨h1, h2⟩ := ih.1 hj
          refine ⟨h1, fun j' hj' => ?_⟩
          cases j' with
          | zero => exact h0
          | succ j'' => exact h2 j'' (Nat.lt_of_succ_lt_succ hj')
        · intro hf
          have : strstr n t = some i' :=
            ih.2 ⟨hf.1, fun j hj => hf.2 (j + 1) (Nat.succ_lt_succ hj)⟩
          rw [this]
          rfl

theorem earliest_eq_none_iff :
    ∀ t : List Char, earliest_blank_line_end t = none ↔
      ∀ i, ¬ occurs_at ['\r', '\n', '\r', '\n'] t i ∧ ¬ occurs_at ['\r', '\r'] t i ∧
        ¬ occurs_at ['\n', '\n'] t i
  | [] => by
    simp only [earliest_blank_line_end, true_iff]
    intro i
    unfold occurs_at
    rw [List.drop_nil]
    simp
  | c :: t => by
    have ih := earliest_eq_none_iff t
    unfold earliest_blank_line_end
    by_cases h1 : ['\r', '\n', '\r', '\n'].isPrefixOf (c :: t) = true
    · rw [if_pos h1]
      simp only [reduceCtorEq, false_iff, not_forall]
      exact ⟨0, fun h => h.1 (List.isPrefixOf_iff_prefix.1 h1)⟩
    · rw [if_neg h1]
      by_cases h2 : ['\r', '\r'].isPrefixOf (c :: t) = true
      · rw [if_pos h2]
        simp only [reduceCtorEq, false_iff, not_forall]
        exact ⟨0, fun h => h.2.1 (List.isPrefixOf_iff_prefix.1 h2)⟩
      · rw [if_neg h2]
        by_cases h3 : ['\n', '\n'].isPrefixOf (c :: t) = true
        · rw [if_pos h3]
          simp only [reduceCtorEq, false_iff, not_forall]
          exact ⟨0, fun h => h.2.2 (List.isPrefixOf_iff_prefix.1 h3)⟩
        · rw [if_neg h3, Option.map_eq_none', ih]
          constructor
          · intro hall i
            cases i with
            | zero =>
              exact ⟨fun hi => h1 (List.isPrefixOf_iff_prefix.2 hi),
                fun hi => h2 (List.isPrefixOf_iff_prefix.2 hi),
                fun hi => h3 (List.isPrefixOf_iff_prefix.2 hi)⟩
            | succ j => exact hall j
          · intro hall j
            exact hall (j + 1)

/-- What `find_start_of_body` computes. It prefers the conventions in a fixed
order, not by position: it returns the offset right after the first
CR LF CR LF if the text has one; otherwise right after the first CR CR if the
text has one; otherwise right after the first LF LF; it returns `NULL` exactly
when none of the three sequences occurs, which is exactly when the text has
no blank line at all. -/
theorem find_start_of_body_order (text : List Char) :
    (∀ i, first_at ['\r', '\n', '\r', '\n'] text i → find_start_of_body text = some (i + 4)) ∧
    ((∀ i, ¬ occurs_at ['\r', '\n', '\r', '\n'] text i) →
      ∀ i, first_at ['\r', '\r'] text i → find_start_of_body text = some (i + 2)) ∧
    ((∀ i, ¬ occurs_at ['\r', '\n', '\r', '\n'] text i) →
      (∀ i, ¬ occurs_at ['\r', '\r'] text i) →
      ∀ i, first_at ['\n', '\n'] text i → find_start_of_body text = some (i + 2)) ∧
    (find_start_of_body text = none ↔
      ∀ i, ¬ occurs_at ['\r', '\n', '\r', '\n'] text i ∧ ¬ occurs_at ['\r', '\r'] text i ∧
        ¬ occurs_at ['\n', '\n'] text i) ∧
    (find_start_of_body text = none ↔ earliest_blank_line_end text = none) := by
  have hnone : find_start_of_body text = none ↔
      ∀ i, ¬ occurs_at ['\r', '\n', '\r', '\n'] text i ∧ ¬ occurs_at ['\r', '\r'] text i ∧
        ¬ occurs_at ['\n', '\n'] text i := by
    unfold find_start_of_body
    cases h1 : strstr ['\r', '\n', '\r', '\n'] text with
    | some r =>
      simp only [reduceCtorEq, false_iff, not_forall]
      exact ⟨r, fun h => h.1 ((strstr_eq_some_iff _ _ _).1 h1).1⟩
    | none =>
      cases h2 : strstr ['\r', '\r'] text with
      | some r =>
        simp only [reduceCtorEq, false_iff, not_forall]
        exact ⟨r, fun h => h.2.1 ((strstr_eq_some_iff _ _ _).1 h2).1⟩
      | none =>
        cases h3 : strstr ['\n', '\n'] text with
        | some r =>
          simp only [reduceCtorEq, false_iff, not_forall]
          exact ⟨r, fun h => h.2.2 ((strstr_eq_some_iff _ _ _).1 h3).1⟩
        | none =>
          simp only [true_iff]
          exact fun i => ⟨(strstr_eq_none_iff _ _).1 h1 i, (strstr_eq_none_iff _ _).1 h2 i,
            (strstr_eq_none_iff _ _).1 h3 i⟩
  refine ⟨?_, ?_, ?_, hnone, hnone.trans (earliest_eq_none_iff text).symm⟩
  · intro i hi
    unfold find_start_of_body
    rw [(strstr_eq_some_iff _ _ _).2 hi]
  · intro h1 i hi
    unfold find_start_of_body
    rw [(strstr_eq_none_iff _ _).2 h1, (strstr_eq_some_iff _ _ _).2 hi]
  · intro h1 h2 i hi
    unfold find_start_of_body
    rw [(strstr_eq_none_iff _ _).2 h1, (strstr_eq_none_iff _ _).2 h2,
      (strstr_eq_some_iff _ _ _).2 hi]

theorem find_start_of_body_order_witness :
    first_at ['\r', '\n', '\r', '\n'] sample_text 4 ∧ first_at ['\n', '\n'] sample_text 1 ∧
    find_start_of_body sample_text = some (4 + 4) :=
  ⟨by decide, by decide, (find_start_of_body_order sample_text).1 4 (by decide)⟩

/-! ## The response buffer -/

theorem sprintf_spec {buf pre : List Nat} (rp : Nat) (out : List Nat) (hpre : pre <+: buf)
    (hrp : rp = pre.length) (hfit : pre.length + out.length + 1 ≤ buf.length) :
    ∃ buf', sprintf buf rp out = some buf' ∧ (pre ++ out) <+: buf' ∧
      buf'.length = buf.length := by
  subst hrp
  have htake : buf.take pre.length = pre := (List.prefix_iff_eq_take.1 hpre).symm
  unfold sprintf
  rw [if_pos hfit, htake]
  refine ⟨_, rfl, ⟨[0] ++ buf.drop (pre.length + out.length + 1), by simp⟩, ?_⟩
  simp only [List.length_append, List.length_drop, List.length_cons, List.length_nil]
  omega

theorem memcpy_spec {buf pre : List Nat} (rp : Nat) (src : List Nat) (n : Int)
    (hpre : pre <+: buf) (hrp : rp = pre.length) (hn : 0 ≤ n) (hsrc : n.toNat ≤ src.length)
    (hfit : pre.length + n.toNat ≤ buf.length) :
    ∃ buf', memcpy buf rp src n = some buf' ∧ (pre ++ src.take n.toNat) <+: buf' ∧
      buf'.length = buf.length := by
  subst hrp
  have htake : buf.take pre.length = pre := (List.prefix_iff_eq_take.1 hpre).symm
  unfold memcpy
  rw [if_pos ⟨hn, hsrc, hfit⟩, htake]
  refine ⟨_, rfl, ⟨buf.drop (pre.length + n.toNat), rfl⟩, ?_⟩
  simp only [List.length_append, List.length_drop, List.length_take]
  omega

theorem poke_spec {buf pre : List Nat} (rp b : Nat) (hpre : pre <+: buf)
    (hrp : rp = pre.length) (hfit : pre.length < buf.length) :
    ∃ buf', poke buf rp b = some buf' ∧ (pre ++ [b]) <+: buf' ∧ buf'.length = buf.length := by
  subst hrp
  obtain ⟨rest, rfl⟩ := hpre
  unfold poke
  rw [if_pos hfit]
  refine ⟨_, rfl, ?_, by simp⟩
  cases rest with
  | nil => simp at hfit
  | cons x xs =>
    refine ⟨xs, ?_⟩
    rw [List.set_append_right _ _ (le_refl _)]
    simp

/-! ## Refinement of the abstract LRU list -/

theorem entry_at_congr {m m' : List cache_entry} {a b : Nat}
    (h : payload_at m' a = payload_at m b) : entry_at m' a = entry_at m b := by
  unfold entry_at
  rw [h]

theorem entry_at_fst (m : List cache_entry) (a : Nat) : (entry_at m a).1 = key_at m a := by
  unfold entry_at payload_at key_at
  cases m[a]? <;> rfl

theorem entry_at_payload {m : List cache_entry} {a : Nat} {e : cache_entry}
    (h : m[a]? = some e) : payload_at m a = some (entry_at m a) := by
  unfold entry_at payload_at
  rw [h]
  rfl

theorem view_keys (c : cache) : (view c).map (fun p => p.1) = recency_keys c := by
  unfold view recency_keys
  rw [List.map_map]
  exact List.map_congr_left (fun a _ => entry_at_fst c.mem a)

theorem map_erase_of_nodup {β : Type} [BEq β] [LawfulBEq β] {L : List Nat} (f : Nat → β)
    (hnd : (L.map f).Nodup) {a : Nat} (ha : a ∈ L) :
    (L.erase a).map f = (L.map f).erase (f a) := by
  obtain ⟨s, t, rfl⟩ := List.append_of_mem ha
  rw [List.map_append, List.map_cons, List.nodup_append] at hnd
  have h1 : a ∉ s := fun h => hnd.2.2 (List.mem_map.2 ⟨a, h, rfl⟩) (List.mem_cons_self _ _)
  have h2 : f a ∉ s.map f := fun h => hnd.2.2 h (List.mem_cons_self _ _)
  rw [erase_mid h1, List.map_append, List.map_append, List.map_cons,
    List.erase_append_right _ h2, List.erase_cons_head]

theorem find_entry {m : List cache_entry} {k : String} :
    ∀ (L : List Nat) (a : Nat), (L.map (key_at m)).Nodup → a ∈ L → key_at m a = k →
      (L.map (entry_at m)).find? (fun p => p.1 = k) = some (entry_at m a)
  | [], _, _, ha, _ => by cases ha
  | b :: l, a, hnd, ha, hk => by
    rw [List.map_cons, List.nodup_cons] at hnd
    rw [List.map_cons]
    by_cases hba : b = a
    · subst hba
      rw [List.find?_cons_of_pos _ (by simp [entry_at_fst, hk])]
    · have hal : a ∈ l := (List.mem_cons.1 ha).resolve_left (fun e => hba e.symm)
      have hne : key_at m b ≠ k := by
        intro e
        exact hnd.1 (List.mem_map.2 ⟨a, hal, hk.trans e.symm⟩)
      rw [List.find?_cons_of_neg _ (by simp [entry_at_fst, hne])]
      exact find_entry l a hnd.2 hal hk

theorem find_entry_none {m : List cache_entry} {k : String} (L : List Nat)
    (hk : k ∉ L.map (key_at m)) : (L.map (entry_at m)).find? (fun p => p.1 = k) = none := by
  rw [List.find?_eq_none]
  intro p hp
  obtain ⟨b, hb, rfl⟩ := List.mem_map.1 hp
  have : key_at m b ≠ k := fun e => hk (List.mem_map.2 ⟨b, hb, e⟩)
  simp [entry_at_fst, this]

theorem view_length {c : cache} (hwf : well_formed c) : ((view c).length : Int) = c.cur_size := by
  unfold view
  rw [List.length_map, hwf.size_eq]

/-- One `cache_put` of an absent key matches the abstract `put` of the
`strdup` copy of its content. -/
theorem put_refines {c : cache} (hwf : well_formed c) (h2 : 2 ≤ c.max_size)
    (hle : c.cur_size ≤ c.max_size) (k ct : String) (d : List Nat) (n : Int)
    (hk : k ∉ (view c).map (fun p => p.1)) :
    ∃ c', cache_put c k ct d n = some c' ∧ well_formed c' ∧
      view c' = model_put c.max_size (view c) k ct (strdup d) n ∧ c'.max_size = c.max_size ∧
      c'.cur_size ≤ c'.max_size := by
  rw [view_keys] at hk
  have hold : ∀ {c' : cache}, same_payload (alloc_entry c.mem k ct d n).1 c'.mem →
      ∀ b ∈ recency_list c, entry_at c'.mem b = entry_at c.mem b := by
    intro c' hpay b hb
    obtain ⟨e, he⟩ := seg_valid _ _ _ hwf.linked.links b hb
    exact entry_at_congr (alloc_payload_old hpay he)
  have hnew : ∀ {c' : cache}, same_payload (alloc_entry c.mem k ct d n).1 c'.mem →
      entry_at c'.mem c.mem.length = (k, ct, strdup d, n) := by
    intro c' hpay
    unfold entry_at
    rw [alloc_payload_new hpay]
    rfl
  unfold model_put
  rw [view_length hwf]
  by_cases hfull : c.cur_size = c.max_size
  · obtain ⟨c', hrun, hwf', hl', _, hm', hs', hpay⟩ :=
      put_keys_full hwf hfull (by rw [hfull]; exact h2) k ct d n hk
    refine ⟨c', hrun, hwf', ?_, hm', by rw [hs', hm']; exact hle⟩
    rw [if_pos hfull]
    unfold view
    rw [hl', List.map_cons, hnew hpay, ← List.map_dropLast]
    congr 1
    exact List.map_congr_left (fun b hb => hold hpay b (mem_dropLast hb))
  · obtain ⟨c', hrun, hwf', hl', _, hm', hs', hpay⟩ := put_keys_notfull hwf hfull k ct d n hk
    refine ⟨c', hrun, hwf', ?_, hm', by rw [hs', hm']; omega⟩
    rw [if_neg hfull]
    unfold view
    rw [hl', List.map_cons, hnew hpay]
    congr 1
    exact List.map_congr_left (fun b hb => hold hpay b hb)

/-- One abstract `get` is matched by `cache_get`: same hit or miss, same
entry, same list afterwards. -/
theorem get_refines {c : cache} (hwf : well_formed c) (k : String) :
    ∃ c' r, cache_get c k = some (c', r) ∧ well_formed c' ∧
      view c' = (model_get (view c) k).1 ∧ c'.max_size = c.max_size ∧
      c'.cur_size = c.cur_size ∧
      (∀ e, (model_get (view c) k).2 = some e →
        ∃ a, r = some a ∧ payload_at c'.mem a = some (k, e)) ∧
      ((model_get (view c) k).2 = none → r = none ∧ c' = c) := by
  by_cases hk : k ∈ recency_keys c
  · obtain ⟨c', a, hrun, _, ha, hka, hwf', hl', _, hF⟩ := get_keys_hit hwf hk
    have hfind := find_entry (recency_list c) a hwf.keys_nodup ha hka
    have hent : ∀ b, entry_at c'.mem b = entry_at c.mem b :=
      fun b => entry_at_congr (hF.payload b)
    have hmodel : model_get (view c) k =
        (entry_at c.mem a :: (view c).erase (entry_at c.mem a), some (entry_at c.mem a).2) := by
      unfold model_get view
      rw [hfind]
    have hnd : ((recency_list c).map (entry_at c.mem)).Nodup := by
      apply List.Nodup.of_map (fun p => p.1)
      rw [List.map_map]
      have : (recency_list c).map ((fun p => p.1) ∘ entry_at c.mem) =
          (recency_list c).map (key_at c.mem) :=
        List.map_congr_left (fun b _ => entry_at_fst c.mem b)
      rw [this]
      exact hwf.keys_nodup
    obtain ⟨ea, hea⟩ := seg_valid _ _ _ hwf.linked.links a ha
    refine ⟨c', some a, hrun, hwf', ?_, hF.max_eq, hF.cur_eq, ?_, ?_⟩
    · rw [hmodel]
      unfold view
      rw [hl', List.map_cons, hent a]
      congr 1
      rw [List.map_congr_left (fun b _ => hent b)]
      exact map_erase_of_nodup _ hnd ha
    · intro e he
      rw [hmodel] at he
      simp only [Option.some.injEq] at he
      refine ⟨a, rfl, ?_⟩
      rw [hF.payload a, entry_at_payload hea, ← he]
      have : (entry_at c.mem a).1 = k := (entry_at_fst c.mem a).trans hka
      rw [← this]
    · intro he
      rw [hmodel] at he
      cases he
  · have hmodel : model_get (view c) k = (view c, none) := by
      unfold model_get view
      rw [find_entry_none (recency_list c) hk]
    refine ⟨c, none, get_keys_miss hwf hk, hwf, by rw [hmodel], rfl, rfl, ?_, fun _ => ⟨rfl, rfl⟩⟩
    intro e he
    rw [hmodel] at he
    cases he

/-- A sequence of calls that follows the protocol is matched call by call by
the abstract list fed with the `strdup` copies of the contents. -/
theorem run_refines (N : Int) (calls : List call) :
    ∀ (c : cache), well_formed c → c.max_size = N → 2 ≤ N → c.cur_size ≤ c.max_size →
      follows_protocol N (view c) (calls.map stored_call) →
      ∃ c', run c calls = some c' ∧ well_formed c' ∧
        view c' = model_run N (view c) (calls.map stored_call) ∧ c'.max_size = N := by
  induction calls with
  | nil =>
    intro c hwf hm _ _ _
    exact ⟨c, rfl, hwf, rfl, hm⟩
  | cons x xs ih =>
    intro c hwf hm h2 hle hp
    cases x with
    | put k ct d n =>
      obtain ⟨hk, hp'⟩ := hp
      obtain ⟨c1, h1, hwf1, hv1, hm1, hle1⟩ :=
        put_refines hwf (by rw [hm]; exact h2) hle k ct d n hk
      rw [hm] at hv1
      rw [← hv1] at hp'
      obtain ⟨c', hr, hwf', hv', hm'⟩ := ih c1 hwf1 (hm1.trans hm) h2 hle1 hp'
      refine ⟨c', ?_, hwf', ?_, hm'⟩
      · rw [run_cons]
        show (cache_put c k ct d n).bind _ = _
        rw [h1]; exact hr
      · rw [hv', hv1]; rfl
    | get k =>
      obtain ⟨c1, r, h1, hwf1, hv1, hm1, hs1, _⟩ := get_refines hwf k
      have hp' : follows_protocol N (model_get (view c) k).1 (xs.map stored_call) := hp
      rw [← hv1] at hp'
      obtain ⟨c', hr, hwf', hv', hm'⟩ :=
        ih c1 hwf1 (hm1.trans hm) h2 (by rw [hs1, hm1]; exact hle) hp'
      refine ⟨c', ?_, hwf', ?_, hm'⟩
      · rw [run_cons]
        show ((cache_get c k).map (fun r => r.1)).bind _ = _
        rw [h1]; exact hr
      · rw [hv', hv1]; rfl

theorem stored_of_zero_free : ∀ (calls : List call), zero_free calls →
    calls.map stored_call = calls
  | [], _ => rfl
  | .put k ct d n :: xs, h => by
    rw [List.map_cons, stored_of_zero_free xs h.2]
    show call.put k ct (strdup d) n :: xs = _
    rw [strdup_eq_self h.1]
  | .get k :: xs, h => by
    rw [List.map_cons, stored_of_zero_free xs h]
    rfl

/-- What the cache refines, whatever the contents: for every capacity `N ≥ 2`
and every sequence of calls in which every put is made with a key not present
at that time, the calls all return and the cache matches the abstract list
fed with the `strdup` copies of the contents: same list from `head`, reverse
list from `tail`, `cur_size` its length, and `cache_get` hits exactly when the
abstract `get` hits, with that entry. -/
theorem lru_refinement_stored (N hashsize : Int) (calls : List call) (hN : 2 ≤ N)
    (hp : follows_protocol N [] (calls.map stored_call)) :
    ∃ c, run (cache_create N hashsize) calls = some c ∧
      view c = model_run N [] (calls.map stored_call) ∧
      view_back c = (model_run N [] (calls.map stored_call)).reverse ∧
      c.cur_size = (model_run N [] (calls.map stored_call)).length ∧
      ∀ k, ∃ c' r, cache_get c k = some (c', r) ∧
        (∀ e, (model_get (model_run N [] (calls.map stored_call)) k).2 = some e →
          ∃ a, r = some a ∧ payload_at c'.mem a = some (k, e)) ∧
        ((model_get (model_run N [] (calls.map stored_call)) k).2 = none →
          r = none ∧ c' = c) := by
  have hv0 : view (cache_create N hashsize) = [] := rfl
  obtain ⟨c, hrun, hwf, hv, _⟩ :=
    run_refines N calls (cache_create N hashsize) (create_well_formed N hashsize) rfl hN
      (by show (0 : Int) ≤ N; omega) (by rw [hv0]; exact hp)
  rw [hv0] at hv
  refine ⟨c, hrun, hv, ?_, ?_, fun k => ?_⟩
  · unfold view_back
    rw [hwf.linked.recency_list_back_eq, List.map_reverse]
    exact congrArg List.reverse hv
  · rw [← hv]; exact (view_length hwf).symm
  · obtain ⟨c', r, hg, _, _, _, _, hhit, hmiss⟩ := get_refines hwf k
    rw [hv] at hhit hmiss
    exact ⟨c', r, hg, hhit, hmiss⟩

/-- The refinement holds as long as no content has a zero byte: for every
capacity `N ≥ 2` and every sequence of calls that follows the protocol and
whose puts carry contents without a zero byte, the calls all return and the
cache matches the abstract list of the pairs that were put. -/
theorem lru_refinement_zero_free (N hashsize : Int) (calls : List call) (hN : 2 ≤ N)
    (hp : follows_protocol N [] calls) (hz : zero_free calls) :
    ∃ c, run (cache_create N hashsize) calls = some c ∧
      view c = model_run N [] calls ∧
      view_back c = (model_run N [] calls).reverse ∧
      c.cur_size = (model_run N [] calls).length ∧
      ∀ k, ∃ c' r, cache_get c k = some (c', r) ∧
        (∀ e, (model_get (model_run N [] calls) k).2 = some e →
          ∃ a, r = some a ∧ payload_at c'.mem a = some (k, e)) ∧
        ((model_get (model_run N [] calls) k).2 = none → r = none ∧ c' = c) := by
  have h := lru_refinement_stored N hashsize calls hN
    (by rw [stored_of_zero_free calls hz]; exact hp)
  rw [stored_of_zero_free calls hz] at h
  exact h

theorem lru_refinement_zero_free_example :
    (2 : Int) ≤ 2 ∧ follows_protocol 2 [] sample_protocol ∧ zero_free sample_protocol ∧
    ∃ c, run (cache_create 2 0) sample_protocol = some c ∧
      view c = model_run 2 [] sample_protocol ∧
      view_back c = (model_run 2 [] sample_protocol).reverse ∧
      c.cur_size = (model_run 2 [] sample_protocol).length ∧
      ∀ k, ∃ c' r, cache_get c k = some (c', r) ∧
        (∀ e, (model_get (model_run 2 [] sample_protocol) k).2 = some e →
          ∃ a, r = some a ∧ payload_at c'.mem a = some (k, e)) ∧
        ((model_get (model_run 2 [] sample_protocol) k).2 = none → r = none ∧ c' = c) :=
  ⟨by decide, by decide, by decide,
    lru_refinement_zero_free 2 0 sample_protocol (by decide) (by decide) (by decide)⟩

/-- Where the structural invariant is kept: `well_formed` (spelled out in the
second part) holds of the cache `cache_create` returns, which has size 0 and
both ends absent; `cache_get` of any key returns and keeps it; a `cache_put`
of a key not present keeps it when it returns, and it returns whenever the
cache is not full or its capacity is at least 2. -/
theorem well_formed_preserved (N hashsize : Int) (c : cache) (k ct : String) (d : List Nat)
    (n : Int) (hwf : well_formed c) (hk : k ∉ recency_keys c) :
    (well_formed (cache_create N hashsize) ∧ (cache_create N hashsize).cur_size = 0 ∧
      (cache_create N hashsize).head = none ∧ (cache_create N hashsize).tail = none) ∧
    ((recency_list c).Nodup ∧ recency_list_back c = (recency_list c).reverse ∧
      (∀ a ∈ recency_list c, hashtable_get c.index (key_at c.mem a) = some a) ∧
      (∀ k' a, hashtable_get c.index k' = some a →
        a ∈ recency_list c ∧ key_at c.mem a = k') ∧
      (c.index.map Prod.fst).Nodup ∧
      ((recency_list c).length : Int) = c.cur_size ∧ (c.index.length : Int) = c.cur_size ∧
      (c.head = none ↔ c.cur_size = 0) ∧ (c.tail = none ↔ c.cur_size = 0)) ∧
    (∀ k', ∃ c' r, cache_get c k' = some (c', r) ∧ well_formed c') ∧
    (∀ c', cache_put c k ct d n = some c' → well_formed c') ∧
    (c.cur_size ≠ c.max_size ∨ 2 ≤ c.max_size → ∃ c', cache_put c k ct d n = some c') := by
  have hput : c.cur_size ≠ c.max_size ∨ 2 ≤ c.cur_size →
      ∃ c', cache_put c k ct d n = some c' ∧ well_formed c' := by
    intro h
    by_cases hfull : c.cur_size = c.max_size
    · obtain ⟨c', h1, h2, _⟩ :=
        put_keys_full hwf hfull (h.resolve_left (fun hne => hne hfull)) k ct d n hk
      exact ⟨c', h1, h2⟩
    · obtain ⟨c', h1, h2, _⟩ := put_keys_notfull hwf hfull k ct d n hk
      exact ⟨c', h1, h2⟩
  refine ⟨⟨create_well_formed N hashsize, rfl, rfl, rfl⟩, well_formed_content hwf, ?_, ?_, ?_⟩
  · intro k'
    by_cases hk' : k' ∈ recency_keys c
    · obtain ⟨c', a, hg, _, _, _, hwf', _⟩ := get_keys_hit hwf hk'
      exact ⟨c', some a, hg, hwf'⟩
    · exact ⟨c, none, get_keys_miss hwf hk', hwf⟩
  · intro c' hc'
    by_cases hfull : c.cur_size = c.max_size
    · rcases Nat.lt_or_ge (recency_list c).length 2 with hlt | hge
      · rw [put_fail hwf.linked hfull (by omega) k ct d n] at hc'
        cases hc'
      · obtain ⟨c1, h1, h2⟩ := hput (Or.inr (by rw [hwf.size_eq]; exact_mod_cast hge))
        rw [h1] at hc'
        cases hc'
        exact h2
    · obtain ⟨c1, h1, h2⟩ := hput (Or.inl hfull)
      rw [h1] at hc'
      cases hc'
      exact h2
  · intro h
    have : c.cur_size ≠ c.max_size ∨ 2 ≤ c.cur_size := by
      by_cases hfull : c.cur_size = c.max_size
      · exact Or.inr (by rw [hfull]; exact h.resolve_left (fun hne => hne hfull))
      · exact Or.inl hfull
    obtain ⟨c', h1, _⟩ := hput this
    exact ⟨c', h1⟩

theorem well_formed_preserved_example :
    well_formed sample ∧ "D" ∉ recency_keys sample ∧
    (∃ c' r, cache_get sample "B" = some (c', r) ∧ well_formed c') ∧
    (∃ c', cache_put sample "D" "text/css" [97] 1 = some c' ∧ well_formed c') :=
  have h := well_formed_preserved 3 0 sample "D" "text/css" [97] 1 (by decide) (by decide)
  ⟨by decide, by decide, h.2.2.1 "B",
    (h.2.2.2.2 (Or.inr (by decide))).elim (fun c' hc' => ⟨c', hc', h.2.2.2.1 c' hc'⟩)⟩

/-! ## The claims -/

/-- C1 (the code faults at capacity 1). The cache `sample_one` is the state
after one put on a fresh cache of capacity 1; it is well formed and full with
`max_size = 1 > 0`, the key B is not in it, and `cache_put` of B returns
nothing: it dereferences `NULL` in `dllist_remove_tail` before any entry is
evicted. -/
theorem cache_put_full_capacity_one_faults :
    cache_put (cache_create 1 0) "A" "text/plain" [104, 105] 2 = some sample_one ∧
    well_formed sample_one ∧ sample_one.cur_size = sample_one.max_size ∧
    0 < sample_one.max_size ∧ "B" ∉ recency_keys sample_one ∧
    cache_put sample_one "B" "text/plain" [104, 105] 2 = none := by
  decide

/-- C2. A `cache_get` of a key present in a well-formed cache returns the
entry the index stores under that key, an entry of the list that carries the
key, and moves it to the head: read from `head` along `next` the list is that
entry followed by the others in their previous order, read from `tail` along
`prev` it is the reverse of that, wherever the entry stood before; `cur_size`,
`max_size`, the index and every payload are unchanged and the cache is still
well formed. -/
theorem cache_get_hit_promotes (c : cache) (k : String) (hwf : well_formed c)
    (hk : k ∈ recency_keys c) :
    ∃ c' a, cache_get c k = some (c', some a) ∧
      hashtable_get c.index k = some a ∧ a ∈ recency_list c ∧ key_at c.mem a = k ∧
      recency_list c' = a :: (recency_list c).erase a ∧
      recency_list_back c' = (a :: (recency_list c).erase a).reverse ∧
      c'.cur_size = c.cur_size ∧ c'.max_size = c.max_size ∧ c'.index = c.index ∧
      same_payload c.mem c'.mem ∧ well_formed c' := by
  obtain ⟨c', a, hrun, hget, ha, hka, hwf', hlist, _, hF⟩ := get_keys_hit hwf hk
  refine ⟨c', a, hrun, hget, ha, hka, hlist, ?_, hF.cur_eq, hF.max_eq, hF.index_eq,
    hF.payload, hwf'⟩
  rw [← hlist]
  exact hwf'.linked.recency_list_back_eq

theorem cache_get_hit_promotes_witness :
    well_formed sample ∧ "B" ∈ recency_keys sample ∧
    ∃ c' a, cache_get sample "B" = some (c', some a) ∧
      hashtable_get sample.index "B" = some a ∧ a ∈ recency_list sample ∧
      key_at sample.mem a = "B" ∧
      recency_list c' = a :: (recency_list sample).erase a ∧
      recency_list_back c' = (a :: (recency_list sample).erase a).reverse ∧
      c'.cur_size = sample.cur_size ∧ c'.max_size = sample.max_size ∧
      c'.index = sample.index ∧ same_payload sample.mem c'.mem ∧ well_formed c' :=
  ⟨by decide, by decide, cache_get_hit_promotes sample "B" (by decide) (by decide)⟩

/-- C3 (the code truncates). One put of a three-byte payload whose second byte
is zero into a cache of capacity 1, then a get of its key: the entry returned
keeps `content_length = 3` but its stored content is the single byte before
the zero, because `alloc_entry` copies the payload with `strdup`. -/
theorem round_trip_zero_byte_truncated :
    ∃ c c' a, cache_put (cache_create 1 0) "/a" "text/plain" [97, 0, 98] 3 = some c ∧
      cache_get c "/a" = some (c', some a) ∧
      payload_at c'.mem a = some ("/a", "text/plain", [97], 3) :=
  ⟨_, _, _, rfl, rfl, rfl⟩

/-- C4. On a fresh cache of capacity `N`, any `k ≤ N` puts with pairwise
distinct keys all return, `cur_size` ends equal to the number of puts, and
`cache_get` of each of the keys hits an entry carrying that key. (`k ≤ N`
already gives `N > 0` as soon as there is a put.) -/
theorem puts_within_capacity (N hashsize : Int) (ps : List (String × String × List Nat × Int))
    (hlen : (ps.length : Int) ≤ N) (hnd : (ps.map (fun p => p.1)).Nodup) :
    ∃ c, run (cache_create N hashsize) (ps.map put_call) = some c ∧
      c.cur_size = ps.length ∧
      ∀ p ∈ ps, ∃ c' a, cache_get c p.1 = some (c', some a) ∧ key_at c.mem a = p.1 := by
  obtain ⟨c, hrun, hwf, hk, hs, _⟩ :=
    run_puts_notfull ps (cache_create N hashsize) (create_well_formed N hashsize) hnd
      (by intro p _; rw [create_keys]; simp)
      (by show (0 : Int) + ps.length ≤ N; omega)
  refine ⟨c, hrun, by rw [hs]; show (0 : Int) + _ = _; omega, ?_⟩
  intro p hp
  have hmem : p.1 ∈ recency_keys c := by
    rw [hk, create_keys, List.append_nil, List.mem_reverse]
    exact List.mem_map.2 ⟨p, hp, rfl⟩
  obtain ⟨c', a, hget, _, _, hka, _⟩ := get_keys_hit hwf hmem
  exact ⟨c', a, hget, hka⟩

theorem puts_within_capacity_witness :
    (sample_puts.length : Int) ≤ 3 ∧ (sample_puts.map (fun p => p.1)).Nodup ∧
    ∃ c, run (cache_create 3 0) (sample_puts.map put_call) = some c ∧
      c.cur_size = sample_puts.length ∧
      ∀ p ∈ sample_puts, ∃ c' a, cache_get c p.1 = some (c', some a) ∧ key_at c.mem a = p.1 :=
  ⟨by decide, by decide, puts_within_capacity 3 0 sample_puts (by decide) (by decide)⟩

/-- C5 (the code faults). With capacity 1 the first `cache_put` returns and the
second one, whatever its key, dereferences `NULL` in `dllist_remove_tail`
(`cache->tail->next` with `cache->tail == NULL`): it does not complete. -/
theorem capacity_one_second_put_faults (hashsize : Int) (A B ctA ctB : String)
    (dA dB : List Nat) (nA nB : Int) :
    ∃ c1, cache_put (cache_create 1 hashsize) A ctA dA nA = some c1 ∧
      cache_put c1 B ctB dB nB = none ∧
      run (cache_create 1 hashsize) [.put A ctA dA nA, .put B ctB dB nB] = none := by
  obtain ⟨c1, h1, hL1, _, hm1, hs1, _⟩ :=
    put_notfull (create_represents 1 hashsize).linked (by simp [cache_create]) A ctA dA nA
  have hfull : c1.cur_size = c1.max_size := by rw [hs1, hm1]; rfl
  have h2 := put_fail hL1 hfull (by simp) B ctB dB nB
  exact ⟨c1, h1, h2, by simp [run, step, h1, h2]⟩

/-- C6. A `cache_get` of a key that no entry of a well-formed cache carries
returns `NULL` and leaves the whole state as it was: `cur_size`, `head`,
`tail`, every cell of the heap with its `prev`/`next` links, and the index. -/
theorem cache_get_miss_unchanged (c : cache) (k : String) (hwf : well_formed c)
    (hk : k ∉ recency_keys c) : cache_get c k = some (c, none) :=
  get_keys_miss hwf hk

theorem cache_get_miss_unchanged_witness :
    well_formed sample ∧ "D" ∉ recency_keys sample ∧ cache_get sample "D" = some (sample, none) :=
  ⟨by decide, by decide, cache_get_miss_unchanged sample "D" (by decide) (by decide)⟩

/-- C7 (the code faults at capacity 1). A cache created with capacity 1 > 0
satisfies the structural invariant, and so does the cache `c1` that the put of
any key A returns from it: `c1` is full and its only key is A. Every
`cache_put` on `c1`, of any key B, among them every key not present, returns
nothing: `dllist_remove_tail` sets `tail` to `NULL` and dereferences it. No
cache that satisfies the invariant comes out of this put. -/
theorem structural_invariant_capacity_one (hashsize : Int) (A ctA : String) (dA : List Nat)
    (nA : Int) :
    0 < (cache_create 1 hashsize).max_size ∧ well_formed (cache_create 1 hashsize) ∧
    ∃ c1, cache_put (cache_create 1 hashsize) A ctA dA nA = some c1 ∧ well_formed c1 ∧
      recency_keys c1 = [A] ∧ c1.cur_size = 1 ∧ c1.max_size = 1 ∧
      ∀ (B ctB : String) (dB : List Nat) (nB : Int), cache_put c1 B ctB dB nB = none := by
  have hwf0 := create_well_formed 1 hashsize
  obtain ⟨c1, h1, hwf1, hl1, hk1, hm1, hs1, _⟩ :=
    put_keys_notfull hwf0 (by simp [cache_create]) A ctA dA nA
      (by rw [create_keys]; simp)
  have hm : c1.max_size = 1 := hm1
  have hs : c1.cur_size = 1 := by rw [hs1]; rfl
  have hlen : (recency_list c1).length ≤ 1 := by
    have := hwf1.size_eq
    omega
  refine ⟨by show (0 : Int) < 1; decide, hwf0, c1, h1, hwf1, by rw [hk1, create_keys], hs, hm,
    ?_⟩
  intro B ctB dB nB
  exact put_fail hwf1.linked (by rw [hs, hm]) hlen B ctB dB nB

/-- C8. On a cache created with capacity `N > 0`, after any sequence of
`cache_put` and `cache_get` calls with any keys, the state `c` the calls leave
satisfies `0 ≤ cur_size ≤ max_size` and `max_size = N` (the sequences range
over all prefixes too, so this is the state after every call); with `N ≥ 2`
every sequence of calls returns. -/
theorem cur_size_bounds (N hashsize : Int) (calls : List call) (hN : 0 < N) :
    (∀ c, run (cache_create N hashsize) calls = some c →
      0 ≤ c.cur_size ∧ c.cur_size ≤ c.max_size ∧ c.max_size = N) ∧
    (2 ≤ N → ∃ c, run (cache_create N hashsize) calls = some c) := by
  have h := run_sound calls (cache_create N hashsize) []
    (create_represents N hashsize).sound (by show (0 : Int) ≤ N; omega)
  refine ⟨fun c hc => ?_, fun h2 => h.2 h2⟩
  obtain ⟨L, hS, hle, hm⟩ := h.1 c hc
  exact ⟨by rw [hS.size_eq]; exact Int.natCast_nonneg _, hle, hm⟩

theorem cur_size_bounds_witness :
    (0 : Int) < 2 ∧
    ∃ c, run (cache_create 2 0) sample_calls = some c ∧
      0 ≤ c.cur_size ∧ c.cur_size ≤ c.max_size ∧ c.max_size = 2 :=
  have h := cur_size_bounds 2 0 sample_calls (by decide)
  ⟨by decide, (h.2 (by decide)).elim (fun c hc => ⟨c, hc, h.1 c hc⟩)⟩

/-- C9. In a full well-formed cache of capacity `N ≥ 2`, a hit `cache_get k`
makes `k` the most recent key. The least recent key `v` after the promotion is
not `k`; the next put of a fresh key evicts `v` (the list loses its last key
and `cache_get v` misses). After fewer than `N` puts of pairwise distinct fresh
keys and no other call `k` still hits; after exactly `N` such puts it is gone. -/
theorem recency_protects (c : cache) (k : String) (ps : List (String × String × List Nat × Int))
    (hwf : well_formed c) (hfull : c.cur_size = c.max_size) (hN : 2 ≤ c.max_size)
    (hk : k ∈ recency_keys c) (hnd : (ps.map (fun p => p.1)).Nodup)
    (hfresh : ∀ p ∈ ps, p.1 ∉ recency_keys c) :
    ∃ c1 a v, cache_get c k = some (c1, some a) ∧
      (recency_keys c1).head? = some k ∧ (recency_keys c1).getLast? = some v ∧ v ≠ k ∧
      (∀ p rest, ps = p :: rest → ∃ c2, cache_put c1 p.1 p.2.1 p.2.2.1 p.2.2.2 = some c2 ∧
        recency_keys c2 = p.1 :: (recency_keys c1).dropLast ∧
        cache_get c2 v = some (c2, none)) ∧
      ((ps.length : Int) < c.max_size →
        ∃ c2 c3 b, run c1 (ps.map put_call) = some c2 ∧
          cache_get c2 k = some (c3, some b) ∧ key_at c2.mem b = k) ∧
      ((ps.length : Int) = c.max_size →
        ∃ c2, run c1 (ps.map put_call) = some c2 ∧ cache_get c2 k = some (c2, none)) := by
  obtain ⟨c1, a, hget, _, _, _, hwf1, _, hk1, hF⟩ := get_keys_hit hwf hk
  have hs1 : c1.cur_size = c1.max_size := by rw [hF.cur_eq, hF.max_eq, hfull]
  have h21 : 2 ≤ c1.cur_size := by rw [hF.cur_eq, hfull]; exact hN
  have hlen1 := recency_keys_length hwf1
  have hnd1 := keys_nodup_of hwf1
  -- the keys after the promotion are the keys before it
  have hsub : ∀ x, x ∈ recency_keys c1 → x ∈ recency_keys c := by
    intro x hx
    rw [hk1] at hx
    rcases List.mem_cons.1 hx with e | hx
    · rw [e]; exact hk
    · exact List.mem_of_mem_erase hx
  have hfresh1 : ∀ p ∈ ps, p.1 ∉ recency_keys c1 := fun p hp hm => hfresh p hp (hsub _ hm)
  -- the least recent key after the promotion
  have hrest : (recency_keys c).erase k ≠ [] := by
    intro e
    rw [hk1, e] at hlen1
    simp at hlen1
    omega
  obtain ⟨v, hv⟩ : ∃ v, ((recency_keys c).erase k).getLast? = some v := by
    cases h : ((recency_keys c).erase k).getLast? with
    | none => exact absurd (List.getLast?_eq_none_iff.1 h) hrest
    | some v => exact ⟨v, rfl⟩
  have hv1 : (recency_keys c1).getLast? = some v := by
    rw [hk1]
    cases h : (recency_keys c).erase k with
    | nil => exact absurd h hrest
    | cons y ys => rw [List.getLast?_cons_cons, ← h]; exact hv
  have hvk : v ≠ k := by
    intro e
    rw [hk1] at hnd1
    have hm := List.mem_of_getLast?_eq_some hv
    rw [e] at hm
    exact (List.nodup_cons.1 hnd1).1 hm
  have hvmem : v ∈ recency_keys c := hsub v (List.mem_of_getLast?_eq_some hv1)
  refine ⟨c1, a, v, hget, by rw [hk1]; rfl, hv1, hvk, ?_, ?_, ?_⟩
  · intro p rest hps
    have hp : p ∈ ps := by rw [hps]; exact List.mem_cons_self _ _
    obtain ⟨c2, h2, hwf2, _, hk2, _⟩ :=
      put_keys_full hwf1 hs1 h21 p.1 p.2.1 p.2.2.1 p.2.2.2 (hfresh1 p hp)
    refine ⟨c2, h2, hk2, get_keys_miss hwf2 ?_⟩
    rw [hk2]
    intro hm
    rcases List.mem_cons.1 hm with e | hm
    · exact hfresh p hp (e ▸ hvmem)
    · exact not_mem_dropLast_of_last hnd1 hv1 hm
  · intro hlt
    have hle : ps.length ≤ (recency_keys c1).length := by
      rw [hF.cur_eq, hfull] at hlen1; omega
    obtain ⟨c2, hr, hwf2, hk2, _⟩ := run_puts_full ps c1 hwf1 hs1 h21 hnd hfresh1 hle
    have hmem : k ∈ recency_keys c2 := by
      rw [hk2]
      apply List.mem_append_right
      have e : (recency_keys c1).length - ps.length =
          ((recency_keys c1).length - ps.length - 1) + 1 := by
        rw [hF.cur_eq, hfull] at hlen1; omega
      rw [e, hk1, List.take_succ_cons]
      exact List.mem_cons_self _ _
    obtain ⟨c3, b, hg, _, _, hkb, _⟩ := get_keys_hit hwf2 hmem
    exact ⟨c2, c3, b, hr, hg, hkb⟩
  · intro heq
    have hle : ps.length ≤ (recency_keys c1).length := by
      rw [hF.cur_eq, hfull] at hlen1; omega
    obtain ⟨c2, hr, hwf2, hk2, _⟩ := run_puts_full ps c1 hwf1 hs1 h21 hnd hfresh1 hle
    refine ⟨c2, hr, get_keys_miss hwf2 ?_⟩
    have e : (recency_keys c1).length - ps.length = 0 := by
      rw [hF.cur_eq, hfull] at hlen1; omega
    rw [hk2, e, List.take_zero, List.append_nil, List.mem_reverse]
    intro hm
    obtain ⟨p, hp, hpk⟩ := List.mem_map.1 hm
    exact hfresh p hp (hpk ▸ hk)

theorem recency_protects_witness :
    well_formed sample ∧ sample.cur_size = sample.max_size ∧ 2 ≤ sample.max_size ∧
    "A" ∈ recency_keys sample ∧ (sample_puts.map (fun p => p.1)).Nodup ∧
    (∀ p ∈ sample_puts, p.1 ∉ recency_keys sample) ∧
    ∃ c1 a v, cache_get sample "A" = some (c1, some a) ∧
      (recency_keys c1).head? = some "A" ∧ (recency_keys c1).getLast? = some v ∧ v ≠ "A" ∧
      (∀ p rest, sample_puts = p :: rest →
        ∃ c2, cache_put c1 p.1 p.2.1 p.2.2.1 p.2.2.2 = some c2 ∧
          recency_keys c2 = p.1 :: (recency_keys c1).dropLast ∧
          cache_get c2 v = some (c2, none)) ∧
      ((sample_puts.length : Int) < sample.max_size →
        ∃ c2 c3 b, run c1 (sample_puts.map put_call) = some c2 ∧
          cache_get c2 "A" = some (c3, some b) ∧ key_at c2.mem b = "A") ∧
      ((sample_puts.length : Int) = sample.max_size →
        ∃ c2, run c1 (sample_puts.map put_call) = some c2 ∧
          cache_get c2 "A" = some (c2, none)) :=
  ⟨by decide, by decide, by decide, by decide, by decide, by decide,
    recency_protects sample "A" sample_puts (by decide) (by decide) (by decide) (by decide)
      (by decide) (by decide)⟩

/-- C10. The scenario with capacity 2 and distinct keys A, B, C: after
`put A`, `put B` the size is 2 and the keys from most to least recent are
`[B, A]`; `get A` hits and the order becomes `[A, B]`; `put C` leaves size 2
and the order `[C, A]`, so B was evicted; `get B` is then a miss. -/
theorem scenario_capacity_two (hashsize : Int) (A B C ctA ctB ctC : String)
    (dA dB dC : List Nat) (nA nB nC : Int) (hAB : A ≠ B) (hAC : A ≠ C) (hBC : B ≠ C) :
    ∃ c2 c3 a c4,
      run (cache_create 2 hashsize) [.put A ctA dA nA, .put B ctB dB nB] = some c2 ∧
      c2.cur_size = 2 ∧ recency_keys c2 = [B, A] ∧
      cache_get c2 A = some (c3, some a) ∧ key_at c3.mem a = A ∧ recency_keys c3 = [A, B] ∧
      cache_put c3 C ctC dC nC = some c4 ∧ c4.cur_size = 2 ∧ recency_keys c4 = [C, A] ∧
      cache_get c4 B = some (c4, none) := by
  have hBA : B ≠ A := fun h => hAB h.symm
  have hCA : C ≠ A := fun h => hAC h.symm
  have hCB : C ≠ B := fun h => hBC h.symm
  obtain ⟨c1, h1, hwf1, _, hk1, hm1, hs1, _⟩ :=
    put_keys_notfull (create_well_formed 2 hashsize) (by simp [cache_create]) A ctA dA nA
      (by simp [create_keys])
  rw [create_keys] at hk1
  have hs1' : c1.cur_size = 1 := by rw [hs1]; rfl
  have hm1' : c1.max_size = 2 := by rw [hm1]; rfl
  obtain ⟨c2, h2, hwf2, _, hk2, hm2, hs2, _⟩ :=
    put_keys_notfull hwf1 (by rw [hs1', hm1']; decide) B ctB dB nB (by simp [hk1, hBA])
  rw [hk1] at hk2
  have hs2' : c2.cur_size = 2 := by rw [hs2, hs1']; rfl
  have hm2' : c2.max_size = 2 := by rw [hm2, hm1']
  obtain ⟨c3, a, h3, _, _, hka, hwf3, _, hk3, hF3⟩ :=
    get_keys_hit hwf2 (k := A) (by simp [hk2])
  have hk3' : recency_keys c3 = [A, B] := by
    rw [hk3, hk2]
    simp [List.erase_cons, hBA]
  have hka3 : key_at c3.mem a = A := (same_payload_key hF3.payload a).trans hka
  have hs3 : c3.cur_size = 2 := by rw [hF3.cur_eq, hs2']
  have hm3 : c3.max_size = 2 := by rw [hF3.max_eq, hm2']
  obtain ⟨c4, h4, hwf4, _, hk4, _, hs4, _⟩ :=
    put_keys_full hwf3 (by rw [hs3, hm3]) (by rw [hs3]) C ctC dC nC (by simp [hk3', hCA, hCB])
  have hk4' : recency_keys c4 = [C, A] := by rw [hk4, hk3']; rfl
  refine ⟨c2, c3, a, c4, by simp [run, step, h1, h2], hs2', hk2, h3, hka3, hk3', h4,
    by rw [hs4, hs3], hk4', ?_⟩
  exact get_keys_miss hwf4 (by simp [hk4', hBC, hBA])

theorem scenario_capacity_two_witness :
    "A" ≠ "B" ∧ "A" ≠ "C" ∧ "B" ≠ "C" ∧
    ∃ c2 c3 a c4,
      run (cache_create 2 0) [.put "A" "text/html" [60, 97, 62] 3,
        .put "B" "text/plain" [104, 105] 2] = some c2 ∧
      c2.cur_size = 2 ∧ recency_keys c2 = ["B", "A"] ∧
      cache_get c2 "A" = some (c3, some a) ∧ key_at c3.mem a = "A" ∧
      recency_keys c3 = ["A", "B"] ∧
      cache_put c3 "C" "text/css" [97] 1 = some c4 ∧ c4.cur_size = 2 ∧
      recency_keys c4 = ["C", "A"] ∧ cache_get c4 "B" = some (c4, none) :=
  ⟨by decide, by decide, by decide,
    scenario_capacity_two 0 "A" "B" "C" "text/html" "text/plain" "text/css" [60, 97, 62] [104, 105]
      [97] 3 2 1 (by decide) (by decide) (by decide)⟩

/-- C11. `cache_put` makes no existence check: on a well-formed cache with
room for two more entries, two consecutive puts with the same key `k` (whether
`k` was present or not) both return and leave two distinct entries carrying
`k` in the list, the second at the head and the first directly behind it, in
front of the old list; `cur_size` grows by 2; the index holds exactly one
mapping for `k`, to the second entry, and `cache_get k` returns the second
entry, leaving the state as it is. -/
theorem duplicate_put_two_entries (c : cache) (k ct1 ct2 : String) (d1 d2 : List Nat)
    (n1 n2 : Int) (hwf : well_formed c) (hroom : c.cur_size + 2 ≤ c.max_size) :
    ∃ c1 c2, cache_put c k ct1 d1 n1 = some c1 ∧ cache_put c1 k ct2 d2 n2 = some c2 ∧
      recency_list c2 = (c.mem.length + 1) :: c.mem.length :: recency_list c ∧
      recency_list_back c2 = (recency_list c2).reverse ∧
      payload_at c2.mem (c.mem.length + 1) = some (k, ct2, strdup d2, n2) ∧
      payload_at c2.mem c.mem.length = some (k, ct1, strdup d1, n1) ∧
      c2.cur_size = c.cur_size + 2 ∧
      c2.index.filter (fun kv => kv.1 = k) = [(k, c.mem.length + 1)] ∧
      cache_get c2 k = some (c2, some (c.mem.length + 1)) := by
  obtain ⟨c1, h1, hL1, hi1, hm1, hs1, hp1⟩ :=
    put_notfull hwf.linked (by omega) k ct1 d1 n1
  have hlen1 : c1.mem.length = c.mem.length + 1 := put_mem_length hp1
  obtain ⟨c2, h2, hL2, hi2, hm2, hs2, hp2⟩ :=
    put_notfull hL1 (by rw [hs1, hm1]; omega) k ct2 d2 n2
  rw [hlen1] at hL2 hi2
  obtain ⟨e1, he1⟩ := seg_valid _ _ _ hL1.links c.mem.length (List.mem_cons_self _ _)
  have hpnew : payload_at c2.mem (c.mem.length + 1) = some (k, ct2, strdup d2, n2) := by
    have := alloc_payload_new hp2
    rw [hlen1] at this
    exact this
  refine ⟨c1, c2, h1, h2, hL2.recency_list_eq, ?_, hpnew, ?_, by rw [hs2, hs1]; omega, ?_, ?_⟩
  · rw [hL2.recency_list_eq]; exact hL2.recency_list_back_eq
  · rw [alloc_payload_old hp2 he1]
    exact alloc_payload_new hp1
  · rw [hi2]; exact put_single_mapping _ _ _
  · refine get_head_unchanged ?_ (by rw [hL2.head_eq]; rfl)
    rw [hi2, get_put, if_pos rfl]

theorem duplicate_put_two_entries_witness :
    well_formed sample_room ∧ sample_room.cur_size + 2 ≤ sample_room.max_size ∧
    ∃ c1 c2, cache_put sample_room "A" "text/html" [60, 97, 62] 3 = some c1 ∧
      cache_put c1 "A" "text/css" [97] 1 = some c2 ∧
      recency_list c2 =
        (sample_room.mem.length + 1) :: sample_room.mem.length :: recency_list sample_room ∧
      recency_list_back c2 = (recency_list c2).reverse ∧
      payload_at c2.mem (sample_room.mem.length + 1) = some ("A", "text/css", strdup [97], 1) ∧
      payload_at c2.mem sample_room.mem.length =
        some ("A", "text/html", strdup [60, 97, 62], 3) ∧
      c2.cur_size = sample_room.cur_size + 2 ∧
      c2.index.filter (fun kv => kv.1 = "A") = [("A", sample_room.mem.length + 1)] ∧
      cache_get c2 "A" = some (c2, some (sample_room.mem.length + 1)) :=
  ⟨by decide, by decide,
    duplicate_put_two_entries sample_room "A" "text/html" "text/css" [60, 97, 62] [97] 3 1
      (by decide) (by decide)⟩

/-- C12 (the code leaks). Capacity 2 and three puts with distinct keys: three
entries are allocated, at addresses 0, 1 and 2; the third put evicts the entry
at 0, and `cache_free` then releases the entries at 2 and 1 only. The evicted
entry is handed to `free_entry` neither by `cache_put` nor by `cache_free`. -/
theorem eviction_never_releases :
    ∃ c, run (cache_create 2 0) [.put "A" "text/plain" [104, 105] 2,
        .put "B" "text/plain" [104, 105] 2, .put "C" "text/plain" [104, 105] 2] = some c ∧
      c.mem.length = 3 ∧ recency_list c = [2, 1] ∧
      run_then_free (cache_create 2 0) [.put "A" "text/plain" [104, 105] 2,
        .put "B" "text/plain" [104, 105] 2, .put "C" "text/plain" [104, 105] 2] =
        some [release.index, release.entry 2, release.entry 1, release.cache_struct] :=
  ⟨_, rfl, rfl, rfl, rfl⟩

/-- C13. On a well-formed cache, empty or full, `cache_free` returns, destroys
the index first, then hands every entry of the recency list to `free_entry`
in the order from `head` along `next`, then frees the cache: each entry of the
list is released exactly once and nothing else is released as an entry. -/
theorem cache_free_releases_each_once (c : cache) (hwf : well_formed c) :
    ∃ rs, cache_free c = some rs ∧
      rs = release.index :: ((recency_list c).map release.entry ++ [release.cache_struct]) ∧
      (∀ a ∈ recency_list c, rs.count (release.entry a) = 1) ∧
      (∀ a, a ∉ recency_list c → rs.count (release.entry a) = 0) := by
  refine ⟨_, cache_free_linked hwf.linked, rfl, fun a ha => ?_, fun a ha => ?_⟩
  · rw [count_entry]
    exact List.count_eq_one_of_mem hwf.linked.nodup ha
  · rw [count_entry]
    exact List.count_eq_zero_of_not_mem ha

theorem cache_free_releases_each_once_witness :
    well_formed sample ∧
    ∃ rs, cache_free sample = some rs ∧
      rs = release.index ::
        ((recency_list sample).map release.entry ++ [release.cache_struct]) ∧
      (∀ a ∈ recency_list sample, rs.count (release.entry a) = 1) ∧
      (∀ a, a ∉ recency_list sample → rs.count (release.entry a) = 0) :=
  ⟨by decide, cache_free_releases_each_once sample (by decide)⟩

/-- C14 (counterexample). `cache_create(0, 0)` returns a cache. -/
theorem cache_create_zero_returns :
    (0 : Int) ≤ 0 ∧ cache_create_ptr 0 0 ≠ none := by
  decide

/-- C14 (amended). `cache_create` checks nothing: for every `max_size`, also
`max_size ≤ 0`, it returns a cache with that `max_size`, size 0, the empty
index and both ends absent. -/
theorem cache_create_unchecked (max_size hashsize : Int) :
    ∃ c, cache_create_ptr max_size hashsize = some c ∧ c.max_size = max_size ∧
      c.cur_size = 0 ∧ c.head = none ∧ c.tail = none ∧ c.index = hashtable_create hashsize :=
  ⟨_, rfl, rfl, rfl, rfl, rfl, rfl⟩

/-- C15 (the code truncates the entry). With capacity 2, a miss on "/a" and
then the put of "/a" with the three bytes 97, 0, 98 follow the protocol. The
abstract list then holds the pair that was put, and its `get` returns that
entry. The calls on the cache return, but the list read from `head` holds the
entry with the single byte 97, so it is not the abstract list, and `cache_get`
hits with that entry, not the abstract one: `alloc_entry` copies the content
with `strdup`. -/
theorem lru_refinement_payload_truncated :
    (2 : Int) ≤ 2 ∧ follows_protocol 2 [] sample_binary ∧
    model_run 2 [] sample_binary = [("/a", "text/plain", [97, 0, 98], 3)] ∧
    (model_get (model_run 2 [] sample_binary) "/a").2 = some ("text/plain", [97, 0, 98], 3) ∧
    ∃ c c' a, run (cache_create 2 0) sample_binary = some c ∧
      view c = [("/a", "text/plain", [97], 3)] ∧
      view c ≠ model_run 2 [] sample_binary ∧
      cache_get c "/a" = some (c', some a) ∧
      payload_at c'.mem a = some ("/a", "text/plain", [97], 3) :=
  ⟨by decide, by decide, by decide, by decide, _, _, _, rfl, rfl, by decide, rfl, rfl⟩

/-- C16. On a cache created with `max_size ≥ 2`, every sequence of `cache_put`
and `cache_get` calls with arbitrary keys returns: no call dereferences an
absent link. In the state it leaves, a full cache has at least two entries in
its list (so `dllist_remove_tail`, called only on a full cache, finds a new
tail), and every entry the index returns is a cell of the list (so
`dllist_move_to_head`, called only on what the index returns, gets a linked
entry); hence the next call returns as well. -/
theorem no_absent_link_dereferenced (N hashsize : Int) (calls : List call) (hN : 2 ≤ N) :
    ∃ c, run (cache_create N hashsize) calls = some c ∧
      (c.cur_size = c.max_size → 2 ≤ (recency_list c).length) ∧
      (∀ k a, hashtable_get c.index k = some a → a ∈ recency_list c) ∧
      (∀ x, ∃ c', step c x = some c') := by
  have h := run_sound calls (cache_create N hashsize) []
    (create_represents N hashsize).sound (by show (0 : Int) ≤ N; omega)
  obtain ⟨c, hc⟩ := h.2 hN
  obtain ⟨L, hS, hle, hm⟩ := h.1 c hc
  have hm' : c.max_size = N := hm
  refine ⟨c, hc, ?_, ?_, fun x => (step_sound hS hle x).2 (by rw [hm']; exact hN)⟩
  · intro hfull
    rw [hS.linked.recency_list_eq]
    have := hS.size_eq
    omega
  · intro k a hget
    rw [hS.linked.recency_list_eq]
    exact (hS.index _ (mem_of_get hget)).1

theorem no_absent_link_dereferenced_witness :
    (2 : Int) ≤ 2 ∧
    ∃ c, run (cache_create 2 0) sample_calls = some c ∧
      (c.cur_size = c.max_size → 2 ≤ (recency_list c).length) ∧
      (∀ k a, hashtable_get c.index k = some a → a ∈ recency_list c) ∧
      (∀ x, ∃ c', step c x = some c') :=
  ⟨by decide, no_absent_link_dereferenced 2 0 sample_calls (by decide)⟩

/-- C17 (counterexample). Capacity 2 and three puts of the same key A: the
third put evicts a tail entry with key A while a newer entry with key A is
still in the list, yet `cache_get A` afterwards hits (the third entry). -/
theorem duplicate_eviction_same_key_hits :
    ∃ c2 c3, run (cache_create 2 0) [.put "A" "text/plain" [104, 105] 2,
        .put "A" "text/plain" [104, 105] 2] = some c2 ∧
      c2.cur_size = c2.max_size ∧ recency_list c2 = [1, 0] ∧ recency_keys c2 = ["A", "A"] ∧
      cache_put c2 "A" "text/plain" [104, 105] 2 = some c3 ∧
      recency_list c3 = [2, 1] ∧ recency_keys c3 = ["A", "A"] ∧ c3.cur_size = 2 ∧
      cache_get c3 "A" = some (c3, some 2) :=
  ⟨_, _, rfl, rfl, rfl, rfl, rfl, rfl, rfl, rfl, rfl⟩

/-- C17 (amended). In a state reached from a fresh cache of capacity `N > 0`,
when the cache is full, the tail entry `t` carries a key that a newer entry
`b` of the list carries too, and `cache_put` is called with another key: the
put returns and evicts `t`; afterwards `cache_get` of the key of `t` is absent
and changes nothing, although `b` is still in the list with that key and is
counted in `cur_size`, which equals the length of the list. This happens for
capacity 2 and `put A`, `put A`, `put B` on a fresh cache, which leave the keys
`[B, A]` in the list, `cur_size = 2` and `cache_get A` absent. -/
theorem duplicate_eviction_strands (N hashsize : Int) (calls : List call) (c : cache)
    (t b : Nat) (k ct : String) (d : List Nat) (n : Int) (hN : 0 < N)
    (hrun : run (cache_create N hashsize) calls = some c)
    (hfull : c.cur_size = c.max_size)
    (ht : (recency_list c).getLast? = some t) (hb : b ∈ (recency_list c).dropLast)
    (hkey : key_at c.mem b = key_at c.mem t) (hk : k ≠ key_at c.mem t) :
    (∃ c', cache_put c k ct d n = some c' ∧
      recency_list c' = c.mem.length :: (recency_list c).dropLast ∧
      cache_get c' (key_at c.mem t) = some (c', none) ∧
      b ∈ recency_list c' ∧ key_at c'.mem b = key_at c.mem t ∧
      c'.cur_size = (recency_list c').length ∧ c'.cur_size = c.cur_size) ∧
    ∃ c0, run (cache_create 2 0) [.put "A" "text/plain" [104, 105] 2,
        .put "A" "text/plain" [104, 105] 2, .put "B" "text/plain" [104, 105] 2] = some c0 ∧
      recency_keys c0 = ["B", "A"] ∧ c0.cur_size = 2 ∧ cache_get c0 "A" = some (c0, none) := by
  refine ⟨?_, duplicate_eviction_example⟩
  obtain ⟨L, hS, _, _⟩ :=
    (run_sound calls (cache_create N hashsize) [] (create_represents N hashsize).sound
      (by show (0 : Int) ≤ N; omega)).1 c hrun
  have hlist := hS.linked.recency_list_eq
  rw [hlist] at ht hb ⊢
  obtain ⟨ys, rfl⟩ := List.getLast?_eq_some_iff.1 ht
  rw [List.dropLast_concat] at hb ⊢
  rcases List.eq_nil_or_concat ys with rfl | ⟨L0, x, rfl⟩
  · cases hb
  · rw [List.concat_eq_append] at hb hS ⊢
    have hS' : Sound c (L0 ++ [x, t]) := by simpa using hS
    obtain ⟨c', hput, hL', hget, hcur, _, hkeys⟩ :=
      put_full_unmaps_tail_key hS'.linked hfull k ct d n hk
    have hbmem : b ∈ L0 ++ [x, t] := by
      rcases List.mem_append.1 hb with h | h
      · exact List.mem_append_left _ h
      · exact List.mem_append_right _ (by simp at h; simp [h])
    refine ⟨c', hput, hL'.recency_list_eq, hget, ?_, ?_, ?_, hcur⟩
    · rw [hL'.recency_list_eq]; exact List.mem_cons_of_mem _ hb
    · rw [hkeys b hbmem]; exact hkey
    · rw [hL'.recency_list_eq, hcur, hS'.size_eq]; simp; omega

theorem duplicate_eviction_strands_witness :
    (0 : Int) < 2 ∧
    ∃ c, run (cache_create 2 0) [.put "A" "text/plain" [104, 105] 2,
        .put "A" "text/plain" [104, 105] 2] = some c ∧
      c.cur_size = c.max_size ∧ (recency_list c).getLast? = some 0 ∧
      1 ∈ (recency_list c).dropLast ∧ key_at c.mem 1 = key_at c.mem 0 ∧
      "B" ≠ key_at c.mem 0 ∧
      ∃ c', cache_put c "B" "text/plain" [104, 105] 2 = some c' ∧
        recency_list c' = c.mem.length :: (recency_list c).dropLast ∧
        cache_get c' (key_at c.mem 0) = some (c', none) ∧
        1 ∈ recency_list c' ∧ key_at c'.mem 1 = key_at c.mem 0 ∧
        c'.cur_size = (recency_list c').length ∧ c'.cur_size = c.cur_size :=
  ⟨by decide, _, rfl, rfl, rfl, by decide, rfl, by decide,
    (duplicate_eviction_strands 2 0 [.put "A" "text/plain" [104, 105] 2,
      .put "A" "text/plain" [104, 105] 2] _ 0 1 "B" "text/plain" [104, 105] 2 (by decide) rfl rfl
      rfl (by decide) rfl (by decide)).1⟩

/-- C18 (the code misses the header end). In the text `a LF LF b CR LF CR LF c`
the earliest blank line is the LF LF at offset 1, so the header ends there and
the body starts at offset 3; `find_start_of_body` returns offset 8, the place
after the later CR LF CR LF. -/
theorem find_start_of_body_not_earliest :
    first_at ['\n', '\n'] sample_text 1 ∧ earliest_blank_line_end sample_text = some 3 ∧
    find_start_of_body sample_text = some 8 := by
  decide

/-- C19. When `content_length ≥ 0`, `body` has that many bytes and everything
fits into the array `response`, the bytes `send_response` hands to `send` are
the header block (status line, LF, the Date line, the Content-Length line with
the decimal length, the Content-Type line, a blank line), the first
`content_length` bytes of `body` and one extra zero byte; the length passed is
the length of the header block plus `content_length` plus 1, so
`content_length + 1` bytes follow the blank line. -/
theorem send_response_bytes (response header content_type date body : List Nat) (n : Int)
    (hlen : response.length = max_response_size) (hn : 0 ≤ n) (hbody : n.toNat ≤ body.length)
    (hfit : (header_block header content_type date n).length + n.toNat + 1 ≤
      max_response_size) :
    send_response response header content_type date body n =
      some (header_block header content_type date n ++ body.take n.toNat ++ [0],
        (header_block header content_type date n).length + n + 1) ∧
    header_block header content_type date n =
      header ++ bytes_of "\n" ++ bytes_of "Date: " ++ date ++ bytes_of "Content-Length: " ++
        decimal n ++ bytes_of "\n" ++ bytes_of "Content-Type: " ++ content_type ++
        bytes_of "\n\n" ∧
    ((body.take n.toNat ++ [0]).length : Int) = n + 1 := by
  have hblock : (header_block header content_type date n).length =
      (header ++ bytes_of "\n").length + (bytes_of "Date: " ++ date).length +
      (bytes_of "Content-Length: " ++ decimal n ++ bytes_of "\n").length +
      (bytes_of "Content-Type: " ++ content_type ++ bytes_of "\n\n").length := by
    simp only [header_block, List.length_append]
  rw [← hlen] at hfit
  obtain ⟨b1, h1, hp1, hl1⟩ := @sprintf_spec response [] 0 (header ++ bytes_of "\n")
    List.nil_prefix rfl (by simp only [List.length_nil]; omega)
  obtain ⟨b2, h2, hp2, hl2⟩ := sprintf_spec
    (0 + (header ++ bytes_of "\n").length) (bytes_of "Date: " ++ date) hp1
    (by simp only [List.nil_append]; omega) (by simp only [List.nil_append]; omega)
  obtain ⟨b3, h3, hp3, hl3⟩ := sprintf_spec
    (0 + (header ++ bytes_of "\n").length + (bytes_of "Date: " ++ date).length)
    (bytes_of "Content-Length: " ++ decimal n ++ bytes_of "\n") hp2
    (by simp only [List.nil_append, List.length_append]; omega)
    (by simp only [List.nil_append, List.length_append] at hblock ⊢; omega)
  obtain ⟨b4, h4, hp4, hl4⟩ := sprintf_spec
    (0 + (header ++ bytes_of "\n").length + (bytes_of "Date: " ++ date).length +
      (bytes_of "Content-Length: " ++ decimal n ++ bytes_of "\n").length)
    (bytes_of "Content-Type: " ++ content_type ++ bytes_of "\n\n") hp3
    (by simp only [List.nil_append, List.length_append]; omega)
    (by simp only [List.nil_append, List.length_append] at hblock ⊢; omega)
  obtain ⟨b5, h5, hp5, hl5⟩ := memcpy_spec
    (0 + (header ++ bytes_of "\n").length + (bytes_of "Date: " ++ date).length +
      (bytes_of "Content-Length: " ++ decimal n ++ bytes_of "\n").length +
      (bytes_of "Content-Type: " ++ content_type ++ bytes_of "\n\n").length) body n hp4
    (by simp only [List.nil_append, List.length_append]; omega) hn hbody
    (by simp only [List.nil_append, List.length_append] at hblock ⊢; omega)
  have htk : (body.take n.toNat).length = n.toNat := by
    rw [List.length_take]; omega
  obtain ⟨b6, h6, hp6, hl6⟩ := poke_spec
    (0 + (header ++ bytes_of "\n").length + (bytes_of "Date: " ++ date).length +
      (bytes_of "Content-Length: " ++ decimal n ++ bytes_of "\n").length +
      (bytes_of "Content-Type: " ++ content_type ++ bytes_of "\n\n").length + n.toNat) 0 hp5
    (by simp only [List.nil_append, List.length_append] at htk ⊢; omega)
    (by simp only [List.nil_append, List.length_append] at hblock htk ⊢; omega)
  have hall : [] ++ (header ++ bytes_of "\n") ++ (bytes_of "Date: " ++ date) ++
      (bytes_of "Content-Length: " ++ decimal n ++ bytes_of "\n") ++
      (bytes_of "Content-Type: " ++ content_type ++ bytes_of "\n\n") ++ body.take n.toNat ++ [0] =
      header_block header content_type date n ++ body.take n.toNat ++ [0] := by
    simp only [header_block, List.nil_append]
  rw [hall] at hp6
  refine ⟨?_, by simp only [header_block, List.append_assoc], ?_⟩
  · unfold send_response
    simp only [Option.bind_eq_bind, h1, h2, h3, h4, h5, h6, Option.some_bind]
    have hlenZ : (0 : Int) + ((header ++ bytes_of "\n").length : Int) +
        ((bytes_of "Date: " ++ date).length : Int) +
        ((bytes_of "Content-Length: " ++ decimal n ++ bytes_of "\n").length : Int) +
        ((bytes_of "Content-Type: " ++ content_type ++ bytes_of "\n\n").length : Int) + n + 1 =
        ((header_block header content_type date n).length : Int) + n + 1 := by
      rw [hblock]; push_cast; ring
    rw [hlenZ]
    have htoNat : (((header_block header content_type date n).length : Int) + n + 1).toNat =
        (header_block header content_type date n ++ body.take n.toNat ++ [0]).length := by
      simp only [List.length_append, htk, List.length_cons, List.length_nil]
      omega
    rw [htoNat, ← List.prefix_iff_eq_take.1 hp6]
  · rw [List.length_append, htk]
    simp only [List.length_cons, List.length_nil]
    omega

theorem send_response_bytes_witness :
    sample_response.length = max_response_size ∧ (0 : Int) ≤ 2 ∧
    (2 : Int).toNat ≤ [104, 105, 33].length ∧
    (header_block (bytes_of "HTTP/1.1 200 OK") (bytes_of "text/plain")
      (bytes_of "Thu Oct 30 10:26:00 2026\n") 2).length + (2 : Int).toNat + 1 ≤
      max_response_size ∧
    send_response sample_response (bytes_of "HTTP/1.1 200 OK") (bytes_of "text/plain")
        (bytes_of "Thu Oct 30 10:26:00 2026\n") [104, 105, 33] 2 =
      some (header_block (bytes_of "HTTP/1.1 200 OK") (bytes_of "text/plain")
          (bytes_of "Thu Oct 30 10:26:00 2026\n") 2 ++ [104, 105] ++ [0],
        ((header_block (bytes_of "HTTP/1.1 200 OK") (bytes_of "text/plain")
          (bytes_of "Thu Oct 30 10:26:00 2026\n") 2).length : Int) + 2 + 1) :=
  ⟨by simp [sample_response], by decide, by decide, by decide,
    (send_response_bytes sample_response (bytes_of "HTTP/1.1 200 OK") (bytes_of "text/plain")
      (bytes_of "Thu Oct 30 10:26:00 2026\n") [104, 105, 33] 2 (by simp [sample_response])
      (by decide) (by decide) (by decide)).1⟩

end CWebServer
